import Mathlib

/-!
# robocrisp: the timer scheduler (`crisp::util`) and its neighbours

A shallow embedding of `ScheduledAction` (src/util/ScheduledAction.cc),
`PeriodicScheduler` (src/util/PeriodicScheduler.cc) and the parts of Boost.Asio
they drive, of `PeriodicAction` (PeriodicAction.hh), `SArray` (SArray.hh),
`MemoryEncodeBuffer::write` (src/comms/Buffer.cc) and `Axis::map`
(src/input/Axis.cc), followed by theorems about them.

Conventions of the embedding.

* Time points and durations of `boost::asio::steady_timer` are unbounded
  integers (`Int`) counted in clock ticks.
* Every read of `std::chrono::steady_clock::now()` consumes one entry of
  `Env.ticks`, the amount of time that passed since the previous read, so the
  theorems hold for every way in which time can pass between two reads.
* Objects are designated by address (`Addr`): the `this` that
  `std::bind(&ScheduledAction::timer_expiry_handler, this, _1)` captures and the
  pointer that `cancel` hands to the removal task.
* A call that dereferences a null `m_timer`, that fails an `assert`, or that
  uses an object whose lifetime has ended, has no result (`none`).  A handler
  that is delivered a non-empty error status stops at its guard
  `m_timer && !error` whatever object it is bound to.
* The arithmetic of `size_t` is arithmetic modulo 2^64 (`size_t_add`,
  `size_t_sub`, `size_t_mul`).
* The `int32_t` of `Axis` is an integer and its `double` a rational number.
-/

namespace crisp.util

/-! ## Data model -/

/-- Embeds `Timer::time_point`, in ticks of the steady clock. -/
abbrev TimePoint := Int

/-- Embeds `Timer::duration`, in ticks of the steady clock. -/
abbrev Duration := Int

/-- The address of a `ScheduledAction` object.  `stack_local` is the automatic
variable `action` of `PeriodicScheduler::set_timer`; `node n` is an element of
the scheduler's `m_actions`. -/
inductive Addr where
  | stack_local : Addr
  | node : Nat → Addr
  deriving DecidableEq, Repr

/-- What a user callback does with the `ScheduledAction&` it is handed: a
sequence of calls of the public interface declared in ScheduledAction.hh. -/
inductive Call where
  | reset_duration : Duration → Call
  | reset_time_point : TimePoint → Call
  | cancel : Call
  deriving DecidableEq, Repr

/-- A callable stored in a `std::function<void(ScheduledAction&)>`.
`target_void` is the value of `target<void>()` on the `std::function` that
holds it (`none` for the null pointer); `body` is what running it does.
The C++ library returns the null pointer from `target<T>()` unless the stored
callable has type `T`, which no callable has for `T = void`, so that the value
is `none` for every callable a program can store; the field is kept general,
and only the theorem on callbacks that `operator ==` cannot tell apart takes
`none` for it. -/
structure Callback where
  target_void : Option Nat
  body : List Call
  deriving DecidableEq, Repr

/-- Embeds `ScheduledAction::Function`: `std::function<void(ScheduledAction&)>`, which
may be empty (`none`). -/
abbrev Function := Option Callback

/-- Embeds `Function::target<void>()`: the null pointer for an empty function. -/
def Function.target (f : Function) : Option Nat :=
  match f with
  | none => none
  | some cb => cb.target_void

/-- A task waiting in the `io_service` queue: a completed wait of a timer (the
handler bound to `this`, with its error status: `true` for
`operation_aborted`), or the `remove` bound by `ScheduledAction::cancel`. -/
inductive Task where
  | wait_handler : Addr → Bool → Task
  | remove : Addr → Task
  deriving DecidableEq, Repr

/-- Embeds `boost::asio::steady_timer`: the expiry time and the pending `async_wait`
operations, each recorded by the `this` its handler is bound to. -/
structure Timer where
  expiry : TimePoint
  waits : List Addr
  deriving DecidableEq, Repr

/-- The members of `ScheduledAction` (the reference `m_scheduler` is the
enclosing `World`). -/
structure ScheduledAction where
  m_timer : Option Timer
  m_function : Function
  deriving DecidableEq, Repr

/-- What a `ScheduledAction` method reaches besides its own members: the steady
clock, the `io_service` queue, and a log of the user-callback invocations (the
address of the action each one was handed). -/
structure Env where
  now : TimePoint
  ticks : List Nat
  posted : List Task
  calls : List Addr
  deriving DecidableEq, Repr

/-- Embeds `PeriodicAction::Function`, by identity. -/
abbrev PeriodicFunction := Nat

/-- The data members of `PeriodicAction` (PeriodicAction.hh): the slot pointer
(the slot is designated by its interval, the key of `m_slots`), the callback
and the `active` flag. -/
structure PeriodicAction where
  slot : Duration
  function : PeriodicFunction
  active : Bool
  deriving DecidableEq, Repr

/-- Modelled from the spec: `PeriodicScheduleSlot` (its header and
implementation are not among the sources): the interval and the members in the
order in which they were added. -/
structure Slot where
  interval : Duration
  actions : List PeriodicAction
  deriving DecidableEq, Repr

/-- Modelled from the spec: `PeriodicScheduleSlot::emplace`, which adds a member
whose `active` flag starts true. -/
def Slot.emplace (function : PeriodicFunction) (s : Slot) : Slot × PeriodicAction :=
  let out : PeriodicAction := { slot := s.interval, function := function, active := true }
  ({ s with actions := s.actions ++ [out] }, out)

/-- Modelled from the spec: `PeriodicScheduleSlot::empty`, true when the slot has
no member. -/
def Slot.empty (s : Slot) : Bool := s.actions.isEmpty

/-- Modelled from the spec: `PeriodicScheduler::SlotMap` (PeriodicScheduler.hh is
not among the sources), the map from interval value to slot, as the list of its
entries. -/
abbrev SlotMap := List (Duration × Slot)

/-- Modelled from the spec: `PeriodicScheduler::ActionSet` (PeriodicScheduler.hh
is not among the sources), the set of live actions, which inserts and removes
by value with the equality of `ScheduledAction` (ScheduledAction.hh provides
`operator ==` and `std::hash` "to allow use with std::unordered_set"); it is
the list of its nodes, each with its address. -/
abbrev ActionSet := List (Addr × ScheduledAction)

/-- The scheduler (`m_actions`, `m_slots`) together with the `io_service` it is
bound to and the clock. -/
structure World where
  m_actions : ActionSet
  m_slots : SlotMap
  env : Env
  deriving DecidableEq, Repr

/-! ## `PeriodicScheduler::schedule` -/

/-- Embeds `m_slots.find(interval)`. -/
def SlotMap.find (interval : Duration) : SlotMap → Option Slot
  | [] => none
  | (k, s) :: rest => if k = interval then some s else SlotMap.find interval rest

/-- Embeds `m_slots.emplace(std::make_pair(interval, slot))`: the map after the call,
the element the returned iterator designates, and the `bool` of the returned
pair (false when the key was already present; the map is then unchanged). -/
def SlotMap.emplace (interval : Duration) (slot : Slot) (m : SlotMap) : SlotMap × Slot × Bool :=
  match SlotMap.find interval m with
  | some s => (m, s, false)
  | none => (m ++ [(interval, slot)], slot, true)

/-- Assignment through the pointer `slot` into the map entry it points to. -/
def SlotMap.assign (interval : Duration) (slot : Slot) : SlotMap → SlotMap
  | [] => []
  | (k, s) :: rest =>
    if k = interval then (k, slot) :: rest else (k, s) :: SlotMap.assign interval slot rest

/-- Embeds `PeriodicScheduler::schedule(interval, function)`; `none` when one of its
assertions fails. -/
def schedule (interval : Duration) (function : PeriodicFunction) (w : World) :
    Option (World × PeriodicAction) :=
  let found : Option (SlotMap × Slot) :=
    match SlotMap.find interval w.m_slots with
    | some s => some (w.m_slots, s)
    | none =>
      let slotpair := SlotMap.emplace interval { interval := interval, actions := [] } w.m_slots
      if slotpair.2.2 then some (slotpair.1, slotpair.2.1) else none
  match found with
  | none => none
  | some (m, slot) =>
    let r := Slot.emplace function slot
    if r.1.empty then none
    else some ({ w with m_slots := SlotMap.assign interval r.1 m }, r.2)

/-- A sequence of `schedule` calls, in order; `none` as soon as one fails. -/
def schedule_all : List (Duration × PeriodicFunction) → World → Option World
  | [], w => some w
  | (interval, function) :: rest, w =>
    match schedule interval function w with
    | none => none
    | some (w1, _) => schedule_all rest w1

/-- The keys of the slot map. -/
def SlotMap.keys (m : SlotMap) : List Duration := m.map Prod.fst

/-! ## Boost.Asio: the clock, the timer and the queue -/

/-- Embeds `std::chrono::steady_clock::now()`: the reading, and the clock after it. -/
def steady_clock_now (e : Env) : TimePoint × Env :=
  match e.ticks with
  | [] => (e.now, e)
  | d :: rest => (e.now + d, { e with now := e.now + d, ticks := rest })

/-- Embeds `io_service::post(task)`. -/
def post (task : Task) (e : Env) : Env :=
  { e with posted := e.posted ++ [task] }

/-- Embeds `Timer::cancel()`: every pending wait completes with `operation_aborted`;
its handler is queued on the `io_service`, never run inside the call. -/
def Timer.cancel (t : Timer) (e : Env) : Timer × Env :=
  ({ t with waits := [] },
   { e with posted := e.posted ++ t.waits.map (fun p => Task.wait_handler p true) })

/-- Embeds `Timer::expires_at(when)`: cancels the pending waits and sets the expiry. -/
def Timer.expires_at (when : TimePoint) (t : Timer) (e : Env) : Timer × Env :=
  let r := t.cancel e
  ({ r.1 with expiry := when }, r.2)

/-- Embeds `Timer::expires_from_now(duration)`: `expires_at(now() + duration)`. -/
def Timer.expires_from_now (duration : Duration) (t : Timer) (e : Env) : Timer × Env :=
  let n := steady_clock_now e
  t.expires_at (n.1 + duration) n.2

/-- Embeds `Timer::async_wait(handler)` with the handler bound to `this`. -/
def Timer.async_wait (this : Addr) (t : Timer) : Timer :=
  { t with waits := t.waits ++ [this] }

/-! ## `ScheduledAction` -/

/-- Embeds `ScheduledAction::ScheduledAction(scheduler, function)`: a new timer, not yet
armed; `none` when `assert(static_cast<bool>(m_function))` fails. -/
def ScheduledAction.construct (function : Function) : Option ScheduledAction :=
  if function.isSome then
    some { m_timer := some { expiry := 0, waits := [] }, m_function := function }
  else none

/-- The state in which an object is left by being moved from (`sa.m_timer =
nullptr`, and `std::move(sa.m_function)` empties the function) and by the
destructor (`m_timer = nullptr`). -/
def ScheduledAction.moved_from : ScheduledAction :=
  { m_timer := none, m_function := none }

/-- Embeds `ScheduledAction::ScheduledAction(ScheduledAction&& sa)` constructing the
object at `this`: the new object, what is left of `sa`, and the clock after
the call. -/
def ScheduledAction.move_construct (this : Addr) (sa : ScheduledAction) (e : Env) :
    Option (ScheduledAction × ScheduledAction × Env) :=
  match sa.m_timer with
  | none => none
  | some t =>
    if sa.m_function.isSome then
      let n := steady_clock_now e
      if t.expiry > n.1 then
        some ({ m_timer := some (t.async_wait this), m_function := sa.m_function },
              ScheduledAction.moved_from, n.2)
      else
        some ({ m_timer := some t, m_function := sa.m_function },
              ScheduledAction.moved_from, n.2)
    else none

/-- Embeds `ScheduledAction::~ScheduledAction()`: cancels the timer when there is one. -/
def ScheduledAction.destroy (a : ScheduledAction) (e : Env) : Env :=
  match a.m_timer with
  | none => e
  | some t => (t.cancel e).2

/-- Embeds `ScheduledAction::cancel()`. -/
def ScheduledAction.cancel (this : Addr) (a : ScheduledAction) (e : Env) :
    Option (ScheduledAction × Env) :=
  match a.m_timer with
  | none => none
  | some t =>
    let r := t.cancel e
    some ({ a with m_timer := some r.1 }, post (Task.remove this) r.2)

/-- Embeds `ScheduledAction::reset(Duration duration)`. -/
def ScheduledAction.reset_duration (this : Addr) (duration : Duration)
    (a : ScheduledAction) (e : Env) : Option (ScheduledAction × Env) :=
  match a.m_timer with
  | none => none
  | some t =>
    let r := t.expires_from_now duration e
    some ({ a with m_timer := some (r.1.async_wait this) }, r.2)

/-- Embeds `ScheduledAction::reset(Duration duration, Function function)`. -/
def ScheduledAction.reset_duration_function (this : Addr) (duration : Duration)
    (function : Function) (a : ScheduledAction) (e : Env) : Option (ScheduledAction × Env) :=
  match a.m_timer with
  | none => none
  | some t =>
    let r := t.expires_from_now duration e
    some ({ m_timer := some (r.1.async_wait this), m_function := function }, r.2)

/-- Embeds `ScheduledAction::reset(TimePoint when)`. -/
def ScheduledAction.reset_time_point (this : Addr) (when : TimePoint)
    (a : ScheduledAction) (e : Env) : Option (ScheduledAction × Env) :=
  match a.m_timer with
  | none => none
  | some t =>
    let r := t.expires_at when e
    some ({ a with m_timer := some (r.1.async_wait this) }, r.2)

/-- Embeds `ScheduledAction::reset(TimePoint when, Function function)`. -/
def ScheduledAction.reset_time_point_function (this : Addr) (when : TimePoint)
    (function : Function) (a : ScheduledAction) (e : Env) : Option (ScheduledAction × Env) :=
  match a.m_timer with
  | none => none
  | some t =>
    let r := t.expires_at when e
    some ({ m_timer := some (r.1.async_wait this), m_function := function }, r.2)

/-- Embeds `ScheduledAction::operator ==`. -/
def ScheduledAction.operator_eq (a sa : ScheduledAction) : Option Bool :=
  match a.m_timer, sa.m_timer with
  | some t, some u =>
    some (decide (t.expiry = u.expiry) &&
          decide (Function.target a.m_function = Function.target sa.m_function))
  | _, _ => none

/-- One call of the user callback on the action it was handed. -/
def Call.run (this : Addr) (c : Call) (a : ScheduledAction) (e : Env) :
    Option (ScheduledAction × Env) :=
  match c with
  | Call.reset_duration d => a.reset_duration this d e
  | Call.reset_time_point t => a.reset_time_point this t e
  | Call.cancel => a.cancel this e

/-- The calls of a callback body, in order. -/
def run_body (this : Addr) : List Call → ScheduledAction → Env → Option (ScheduledAction × Env)
  | [], a, e => some (a, e)
  | c :: rest, a, e =>
    match c.run this a e with
    | none => none
    | some r => run_body this rest r.1 r.2

/-- Embeds `m_function(*this)`: the invocation is logged, then the body runs. -/
def invoke (this : Addr) (cb : Callback) (a : ScheduledAction) (e : Env) :
    Option (ScheduledAction × Env) :=
  run_body this cb.body a { e with calls := e.calls ++ [this] }

/-- Embeds `ScheduledAction::timer_expiry_handler(error)`; `error` is true for a
non-empty error code. -/
def ScheduledAction.timer_expiry_handler (this : Addr) (error : Bool)
    (a : ScheduledAction) (e : Env) : Option (ScheduledAction × Env) :=
  if a.m_timer.isSome ∧ error = false then
    let called : Option (ScheduledAction × Env) :=
      match a.m_function with
      | some cb => invoke this cb a e
      | none => some (a, e)
    match called with
    | none => none
    | some r =>
      match r.1.m_timer with
      | none => none
      | some t =>
        let n := steady_clock_now r.2
        if t.expiry < n.1 then r.1.cancel this n.2 else some (r.1, n.2)
  else some (a, e)

/-! ## `PeriodicScheduler`: the live set -/

/-- The object at an address of the live set. -/
def ActionSet.deref (this : Addr) : ActionSet → Option ScheduledAction
  | [] => none
  | (p, a) :: rest => if p = this then some a else ActionSet.deref this rest

/-- The live set after the object at `this` was given a new state. -/
def ActionSet.store (this : Addr) (a : ScheduledAction) : ActionSet → ActionSet
  | [] => []
  | (p, x) :: rest =>
    if p = this then (p, a) :: rest else (p, x) :: ActionSet.store this a rest

/-- The addresses of the live set. -/
def ActionSet.addrs (m : ActionSet) : List Addr := m.map Prod.fst

/-- The element of the set that is equal to `key`, when there is one.
`std::hash<ScheduledAction>` is not among the sources; it is taken to agree
with `operator ==`, as `std::unordered_set` requires. -/
def ActionSet.find (key : ScheduledAction) : ActionSet → Option Addr
  | [] => none
  | (p, x) :: rest =>
    if x.operator_eq key = some true then some p else ActionSet.find key rest

/-- An address for a new node, different from those in use. -/
def ActionSet.fresh : ActionSet → Nat
  | [] => 0
  | (Addr.node n, _) :: rest => max (n + 1) (ActionSet.fresh rest)
  | (Addr.stack_local, _) :: rest => ActionSet.fresh rest

/-- Embeds `m_actions.insert(std::move(action))`: the set and the clock after the call,
the element the returned iterator designates, and the `bool` of the returned
pair.  When an equal element is present nothing is constructed. -/
def ActionSet.insert (action : ScheduledAction) (m : ActionSet) (e : Env) :
    Option (ActionSet × Env × Addr × Bool) :=
  match ActionSet.find action m with
  | some p => some (m, e, p, false)
  | none =>
    let this := Addr.node (ActionSet.fresh m)
    match ScheduledAction.move_construct this action e with
    | none => none
    | some r => some (m ++ [(this, r.1)], r.2.2, this, true)

/-- Embeds `m_actions.erase(action)`: the element equal to `action`, when there is
one, is destroyed. -/
def ActionSet.erase (key : ScheduledAction) : ActionSet → Env → ActionSet × Env
  | [], e => ([], e)
  | (p, x) :: rest, e =>
    if x.operator_eq key = some true then (rest, x.destroy e)
    else
      let r := ActionSet.erase key rest e
      ((p, x) :: r.1, r.2)

/-- Embeds `PeriodicScheduler::set_timer(duration, function)`: the scheduler after the
call and the returned reference; `none` when an assertion fails. -/
def set_timer (duration : Duration) (function : Function) (w : World) :
    Option (World × Addr) :=
  match ScheduledAction.construct function with
  | none => none
  | some action =>
    match action.reset_duration Addr.stack_local duration w.env with
    | none => none
    | some r =>
      match ActionSet.insert r.1 w.m_actions r.2 with
      | none => none
      | some action_pair =>
        if action_pair.2.2.2 then
          some ({ w with m_actions := action_pair.1, env := action_pair.2.1 },
                action_pair.2.2.1)
        else none

/-- Embeds `PeriodicScheduler::remove(action)`. -/
def remove (action : ScheduledAction) (w : World) : World :=
  let r := ActionSet.erase action w.m_actions w.env
  { w with m_actions := r.1, env := r.2 }

/-! ## The reactor -/

/-- A method call on the object at `this`.  An address that is not in the live
set is that of an object whose lifetime has ended (the automatic variable of
`set_timer`, or an erased element): a call through it has no result. -/
def World.call (this : Addr)
    (method : ScheduledAction → Env → Option (ScheduledAction × Env)) (w : World) :
    Option World :=
  match ActionSet.deref this w.m_actions with
  | some a =>
    match method a w.env with
    | none => none
    | some r => some { w with m_actions := ActionSet.store this r.1 w.m_actions, env := r.2 }
  | none => none

/-- Modelled from the spec: the `Scheduler::remove(std::weak_ptr<ScheduledAction>)`
that `cancel` binds is not among the sources; the task removes the action the
pointer designates with `PeriodicScheduler::remove`, and does nothing when that
action no longer exists. -/
def remove_task (action : Addr) (w : World) : World :=
  match ActionSet.deref action w.m_actions with
  | some a => remove a w
  | none => w

/-- The reactor runs one task of its queue.  A completed wait runs
`timer_expiry_handler` on the object its handler was bound to.  When that
object is no longer alive the handler runs on a dangling `this`: with a
non-empty error status the guard `m_timer && !error` fails whatever `m_timer`
reads and nothing happens; with an empty status the handler goes on to use the
destroyed object, which C++ leaves undefined, and the task has no result. -/
def run_task (task : Task) (w : World) : Option World :=
  match task with
  | Task.wait_handler this error =>
    match ActionSet.deref this w.m_actions with
    | some _ => w.call this (fun a e => a.timer_expiry_handler this error e)
    | none => if error then some w else none
  | Task.remove action => some (remove_task action w)

/-- The reactor runs tasks one after the other. -/
def run_tasks : List Task → World → Option World
  | [], w => some w
  | task :: rest, w =>
    match run_task task w with
    | none => none
    | some w1 => run_tasks rest w1

/-- The reactor reads the clock and finds the timer of the live action `owner`
expired: each pending wait completes with an empty error code and the handlers
run in the order in which the waits were armed.  Nothing happens before the
expiry time. -/
def fire (owner : Addr) (w : World) : Option World :=
  match ActionSet.deref owner w.m_actions with
  | none => some w
  | some a =>
    match a.m_timer with
    | none => some w
    | some t =>
      let n := steady_clock_now w.env
      if t.expiry ≤ n.1 then
        run_tasks (t.waits.map (fun p => Task.wait_handler p false))
          { w with
            m_actions := ActionSet.store owner { a with m_timer := some { t with waits := [] } }
              w.m_actions,
            env := n.2 }
      else some { w with env := n.2 }

/-- The invariants of the live set: the nodes have distinct addresses, none of
them the automatic variable of `set_timer`, no two elements are equal (it is a
set), and every element has a timer and a callback (the assertions of both
constructors). -/
def World.wf (w : World) : Prop :=
  (ActionSet.addrs w.m_actions).Nodup ∧
  Addr.stack_local ∉ ActionSet.addrs w.m_actions ∧
  w.m_actions.Pairwise (fun x y => x.2.operator_eq y.2 ≠ some true) ∧
  ∀ x ∈ w.m_actions, x.2.m_timer.isSome ∧ x.2.m_function.isSome

/-- The tasks that a callback body can leave in the queue: handlers of canceled
waits and removal requests for the action itself. -/
def Task.benign (this : Addr) (task : Task) : Prop :=
  task = Task.remove this ∨ ∃ p, task = Task.wait_handler p true

/-- The removal requests for `action` among the tasks. -/
def removals (action : Addr) (tasks : List Task) : Nat :=
  tasks.count (Task.remove action)

/-! ## `PeriodicAction` and the tick of a slot -/

/-- Modelled from the spec: `PeriodicAction::pause` (declared in
PeriodicAction.hh, its definition is not among the sources): sets
`active = false`. -/
def PeriodicAction.pause (a : PeriodicAction) : PeriodicAction :=
  { a with active := false }

/-- Modelled from the spec: `PeriodicAction::unpause` (declared in
PeriodicAction.hh, its definition is not among the sources): sets
`active = true`. -/
def PeriodicAction.unpause (a : PeriodicAction) : PeriodicAction :=
  { a with active := true }

/-- A method call through a handle: the member at position `i` of the slot is
replaced by what the method makes of it; the handle designates nothing when
`i` is not a position of the slot. -/
def Slot.call_member (method : PeriodicAction → PeriodicAction) : Nat → List PeriodicAction →
    List PeriodicAction
  | _, [] => []
  | 0, a :: rest => method a :: rest
  | i + 1, a :: rest => a :: Slot.call_member method i rest

/-- A method call on the member at position `i` of a slot. -/
def Slot.call (i : Nat) (method : PeriodicAction → PeriodicAction) (s : Slot) : Slot :=
  { s with actions := Slot.call_member method i s.actions }

/-- Modelled from the spec: `PeriodicAction::timer_expiry_handler` (declared in
PeriodicAction.hh, its definition is not among the sources), which "calls the
user function whenever called with an empty error object"; the invocation is
appended to the log. -/
def PeriodicAction.timer_expiry_handler (error : Bool) (a : PeriodicAction)
    (log : List PeriodicFunction) : List PeriodicFunction :=
  if error then log else log ++ [a.function]

/-- Modelled from the spec: the dispatch of one timer expiry of a slot over its
members, "invoke every member's callback whose `active` flag is true, in
insertion order". -/
def Slot.dispatch (error : Bool) : List PeriodicAction → List PeriodicFunction →
    List PeriodicFunction
  | [], log => log
  | a :: rest, log =>
    if a.active then Slot.dispatch error rest (a.timer_expiry_handler error log)
    else Slot.dispatch error rest log

/-- Modelled from the spec: one tick of a slot, the slot after it and the log of
the callbacks it invoked. -/
def Slot.tick (error : Bool) (s : Slot) : Slot × List PeriodicFunction :=
  (s, Slot.dispatch error s.actions [])

/-! ## `SArray` -/

/-- The number of values of `size_t` (64 bits). -/
def size_modulus : Nat := 2 ^ 64

/-- Subtraction of `size_t`. -/
def size_t_sub (x y : Nat) : Nat := (x % size_modulus + size_modulus - y % size_modulus) % size_modulus

/-- Addition of `size_t`. -/
def size_t_add (x y : Nat) : Nat := (x + y) % size_modulus

/-- Multiplication of `size_t`. -/
def size_t_mul (x y : Nat) : Nat := (x * y) % size_modulus

/-- The members of `SArray<_Tp>`: `data` is the content of the cells that are
allocated at the pointer `data` (none for the null pointer). -/
structure SArray (α : Type) where
  data : List α
  size : Nat
  capacity : Nat
  deriving DecidableEq, Repr

/-- Embeds `SArray::ensure_capacity(reqd_capacity)` for an element type of
`sizeof_value` bytes (at least 1); `zero` is the element with all bytes zero.
`realloc(data, capacity * sizeof(ValueType))` is taken to succeed: the new
block has `allocated` bytes and keeps the cells of the old one that fit in it.
`memset(data + old_capacity, 0, sizeof(ValueType) * (capacity - old_capacity))`
then zeroes `zeroed` bytes from cell `old_capacity` on.  Both byte counts are
`size_t` products.  There is no result (`none`) when `memset` would write
outside the new block. -/
def SArray.ensure_capacity {α : Type} (sizeof_value : Nat) (zero : α) (reqd_capacity : Nat)
    (a : SArray α) : Option (SArray α) :=
  if a.capacity < reqd_capacity then
    let old_capacity := a.capacity
    let capacity :=
      if old_capacity > 0 then
        size_t_add a.capacity (size_t_mul 2 (size_t_sub reqd_capacity a.capacity))
      else reqd_capacity
    let allocated := size_t_mul capacity sizeof_value
    let zeroed := size_t_mul sizeof_value (size_t_sub capacity old_capacity)
    if old_capacity * sizeof_value + zeroed ≤ allocated then
      some { data := a.data.take (allocated / sizeof_value) ++
                       List.replicate (zeroed / sizeof_value) zero,
             size := a.size,
             capacity := capacity }
    else none
  else some a

end crisp.util

namespace crisp.comms

/-! ## `MemoryEncodeBuffer` -/

/-- The values of `EncodeResult` that Buffer.cc returns (Buffer.hh is not among
the sources). -/
inductive EncodeResult where
  | SUCCESS : EncodeResult
  | INSUFFICIENT_SPACE : EncodeResult
  deriving DecidableEq, Repr

/-- The members of `MemoryEncodeBuffer` that `write` uses: the bytes at `data`,
`length` and `offset` (both `size_t`). -/
structure MemoryEncodeBuffer where
  data : List Nat
  length : Nat
  offset : Nat
  deriving DecidableEq, Repr

/-- Embeds `memcpy(dst + offset, src, n)` on the cells at `dst`. -/
def memcpy (dst : List Nat) (offset : Nat) (src : List Nat) (n : Nat) : List Nat :=
  dst.take offset ++ src.take n ++ dst.drop (offset + n)

/-- Embeds `MemoryEncodeBuffer::write(buf, size)`: the result and the buffer after
the call. -/
def MemoryEncodeBuffer.write (buf : List Nat) (size : Nat) (b : MemoryEncodeBuffer) :
    EncodeResult × MemoryEncodeBuffer :=
  if util.size_t_sub b.length b.offset < size then (EncodeResult.INSUFFICIENT_SPACE, b)
  else
    (EncodeResult.SUCCESS,
     { b with data := memcpy b.data b.offset buf size,
              offset := util.size_t_add b.offset size })

end crisp.comms

namespace crisp.input

/-! ## `Axis` -/

/-- `Axis::RawValue`, `int32_t`: an integer; the arithmetic on it is exact where
C++ defines it (signed overflow is undefined). -/
abbrev RawValue := Int

/-- `Axis::Value`, `double`: taken as a rational number, with exact arithmetic;
a division by zero, which gives an infinity or a NaN in C++, gives 0 here. -/
abbrev Value := ℚ

/-- The members of `Axis::RawConfig` that Axis.cc reads (Axis.hh is not among the
sources; EvDevController.cc initialises it with the neutral value, the minimum
and the maximum, followed by two values that Axis.cc does not read). -/
structure RawConfig where
  neutral : RawValue
  minimum : RawValue
  maximum : RawValue
  deriving DecidableEq, Repr

/-- The values of `Axis::MapMethod` that Axis.cc names. -/
inductive MapMethod where
  | NONE : MapMethod
  | LINEAR : MapMethod
  | POLYNOMIAL : MapMethod
  deriving DecidableEq, Repr

/-- The members of `Axis` that `map` reads. -/
structure Axis where
  raw : RawConfig
  map_method : MapMethod
  coefficients : List Value

/-- The loop of `Axis::map(Value)` for `MapMethod::POLYNOMIAL`, from `i` down to
1: `out += coefficients[i - 1] * std::pow(x, i - 1)`. -/
def Axis.polynomial (coefficients : List Value) (x : Value) : Nat → Value → Value
  | 0, out => out
  | i + 1, out => Axis.polynomial coefficients x i (out + coefficients.getD i 0 * x ^ i)

/-- Embeds `Axis::map(Value x)`. -/
def Axis.map_value (a : Axis) (x : Value) : Value :=
  match a.map_method with
  | MapMethod.NONE => x
  | MapMethod.LINEAR => x
  | MapMethod.POLYNOMIAL => Axis.polynomial a.coefficients x a.coefficients.length 0

/-- The first stage of `Axis::map(RawValue raw_value)`: the value of `x` that is
handed to `map(x)`, or `none` when the `std::runtime_error` is thrown. -/
def Axis.linear_stage (raw : RawConfig) (raw_value : RawValue) : Option Value :=
  let max : Value := ((raw.maximum - raw.neutral : Int) : ℚ)
  let min : Value := ((raw.minimum - raw.neutral : Int) : ℚ)
  let val : Value := ((raw_value - raw.neutral : Int) : ℚ)
  if raw.maximum = -raw.minimum ∨ raw.minimum = raw.neutral then some (val / max)
  else if raw.maximum = raw.neutral then some (val / min)
  else if |raw.maximum - raw.neutral| ≠ |raw.minimum - raw.neutral| then
    some (val / Max.max |max| |min|)
  else none

/-- Embeds `Axis::map(RawValue raw_value)`; `none` when it throws. -/
def Axis.map_raw_value (a : Axis) (raw_value : RawValue) : Option Value :=
  match Axis.linear_stage a.raw raw_value with
  | none => none
  | some x => some (a.map_value x)

end crisp.input

namespace crisp.util

/-! ## Lemmas: the slot map -/

theorem SlotMap.find_eq_none_iff (interval : Duration) (m : SlotMap) :
    SlotMap.find interval m = none ↔ interval ∉ SlotMap.keys m := by
  induction m with
  | nil => simp [SlotMap.find, SlotMap.keys]
  | cons p rest ih =>
    obtain ⟨k, s⟩ := p
    by_cases hk : k = interval
    · simp [SlotMap.find, SlotMap.keys, hk]
    · have hk2 : ¬ interval = k := fun h => hk h.symm
      simp only [SlotMap.keys] at ih
      simp [SlotMap.find, SlotMap.keys, hk, hk2, ih]

theorem SlotMap.keys_assign (interval : Duration) (slot : Slot) (m : SlotMap) :
    SlotMap.keys (SlotMap.assign interval slot m) = SlotMap.keys m := by
  induction m with
  | nil => rfl
  | cons p rest ih =>
    obtain ⟨k, s⟩ := p
    simp only [SlotMap.keys] at ih
    by_cases hk : k = interval
    · simp [SlotMap.assign, SlotMap.keys, hk]
    · simp [SlotMap.assign, SlotMap.keys, hk, ih]

theorem Slot.emplace_not_empty (function : PeriodicFunction) (s : Slot) :
    (Slot.emplace function s).1.empty = false := by
  simp [Slot.emplace, Slot.empty]

/-- One `schedule` call always returns; it touches nothing but the slot map, in
which it keeps the keys when the interval has a slot and appends the interval
otherwise. -/
theorem schedule_step (interval : Duration) (function : PeriodicFunction) (w : World) :
    ∃ w1 out, schedule interval function w = some (w1, out) ∧
      w1.m_actions = w.m_actions ∧ w1.env = w.env ∧
      SlotMap.keys w1.m_slots =
        if interval ∈ SlotMap.keys w.m_slots then SlotMap.keys w.m_slots
        else SlotMap.keys w.m_slots ++ [interval] := by
  cases hf : SlotMap.find interval w.m_slots with
  | some s =>
    have hmem : interval ∈ SlotMap.keys w.m_slots := by
      by_contra hc
      rw [(SlotMap.find_eq_none_iff interval w.m_slots).mpr hc] at hf
      cases hf
    simp [schedule, hf, Slot.emplace_not_empty, SlotMap.keys_assign, hmem]
  | none =>
    have hmem : interval ∉ SlotMap.keys w.m_slots :=
      (SlotMap.find_eq_none_iff interval w.m_slots).mp hf
    simp [schedule, hf, SlotMap.emplace, Slot.emplace_not_empty, SlotMap.keys_assign, hmem]
    simp [SlotMap.keys]

theorem schedule_all_spec (calls : List (Duration × PeriodicFunction)) :
    ∀ w : World, (SlotMap.keys w.m_slots).Nodup →
      ∃ w1, schedule_all calls w = some w1 ∧
        (SlotMap.keys w1.m_slots).Nodup ∧
        (∀ k, k ∈ SlotMap.keys w1.m_slots ↔
          k ∈ SlotMap.keys w.m_slots ∨ k ∈ calls.map Prod.fst) := by
  induction calls with
  | nil => intro w h; exact ⟨w, rfl, h, by simp⟩
  | cons c rest ih =>
    intro w h
    obtain ⟨interval, function⟩ := c
    obtain ⟨w1, out, hs, _, _, hk⟩ := schedule_step interval function w
    have hnd : (SlotMap.keys w1.m_slots).Nodup := by
      rw [hk]
      split
      · exact h
      · rename_i hn
        exact List.Nodup.append h (List.nodup_singleton _) (by simpa using hn)
    obtain ⟨w2, h2, hnd2, hmem2⟩ := ih w1 hnd
    refine ⟨w2, by simp [schedule_all, hs, h2], hnd2, ?_⟩
    intro k
    rw [hmem2 k, hk]
    split
    · rename_i hin
      simp only [List.map_cons, List.mem_cons]
      constructor
      · rintro (h1 | h1)
        · exact Or.inl h1
        · exact Or.inr (Or.inr h1)
      · rintro (h1 | h1 | h1)
        · exact Or.inl h1
        · exact Or.inl (h1 ▸ hin)
        · exact Or.inr h1
    · simp only [List.map_cons, List.mem_cons, List.mem_append, List.mem_singleton]
      tauto

/-! ## Lemmas: the live set -/

theorem ActionSet.store_deref_self (this : Addr) (a : ScheduledAction) (m : ActionSet)
    (h : ActionSet.deref this m = some a) : ActionSet.store this a m = m := by
  induction m with
  | nil => rfl
  | cons x rest ih =>
    obtain ⟨p, b⟩ := x
    by_cases hp : p = this
    · simp [ActionSet.deref, hp] at h
      simp [ActionSet.store, hp, h]
    · simp [ActionSet.deref, hp] at h
      simp [ActionSet.store, hp, ih h]

theorem ActionSet.addrs_store (this : Addr) (a : ScheduledAction) (m : ActionSet) :
    ActionSet.addrs (ActionSet.store this a m) = ActionSet.addrs m := by
  induction m with
  | nil => rfl
  | cons x rest ih =>
    obtain ⟨p, b⟩ := x
    simp only [ActionSet.addrs] at ih
    by_cases hp : p = this
    · simp [ActionSet.store, ActionSet.addrs, hp]
    · simp [ActionSet.store, ActionSet.addrs, hp, ih]

theorem ActionSet.deref_store_ne (this p : Addr) (a : ScheduledAction) (m : ActionSet)
    (h : p ≠ this) : ActionSet.deref p (ActionSet.store this a m) = ActionSet.deref p m := by
  induction m with
  | nil => rfl
  | cons x rest ih =>
    obtain ⟨q, b⟩ := x
    by_cases hq : q = this
    · subst hq
      have hqp : ¬ q = p := fun hh => h hh.symm
      simp [ActionSet.store, ActionSet.deref, hqp]
    · by_cases hqp : q = p
      · subst hqp
        simp [ActionSet.store, ActionSet.deref, hq]
      · simp [ActionSet.store, ActionSet.deref, hq, hqp, ih]

theorem ActionSet.deref_store_self (this : Addr) (a b : ScheduledAction) (m : ActionSet)
    (h : ActionSet.deref this m = some b) :
    ActionSet.deref this (ActionSet.store this a m) = some a := by
  induction m with
  | nil => simp [ActionSet.deref] at h
  | cons x rest ih =>
    obtain ⟨q, c⟩ := x
    by_cases hq : q = this
    · simp [ActionSet.store, ActionSet.deref, hq]
    · simp [ActionSet.deref, hq] at h
      simp [ActionSet.store, ActionSet.deref, hq, ih h]

theorem ActionSet.deref_eq_none_iff (this : Addr) (m : ActionSet) :
    ActionSet.deref this m = none ↔ this ∉ ActionSet.addrs m := by
  induction m with
  | nil => simp [ActionSet.deref, ActionSet.addrs]
  | cons x rest ih =>
    obtain ⟨q, c⟩ := x
    simp only [ActionSet.addrs] at ih
    by_cases hq : q = this
    · simp [ActionSet.deref, ActionSet.addrs, hq]
    · have hq2 : ¬ this = q := fun hh => hq hh.symm
      simp [ActionSet.deref, ActionSet.addrs, hq, hq2, ih]

theorem ActionSet.mem_of_deref (this : Addr) (a : ScheduledAction) (m : ActionSet)
    (h : ActionSet.deref this m = some a) : (this, a) ∈ m := by
  induction m with
  | nil => simp [ActionSet.deref] at h
  | cons x rest ih =>
    obtain ⟨q, c⟩ := x
    by_cases hq : q = this
    · simp [ActionSet.deref, hq] at h
      simp [hq, h]
    · simp [ActionSet.deref, hq] at h
      exact List.mem_cons_of_mem _ (ih h)

theorem ActionSet.mem_store (this : Addr) (a : ScheduledAction) (m : ActionSet)
    (y : Addr × ScheduledAction) (h : y ∈ ActionSet.store this a m) :
    y ∈ m ∨ (y = (this, a) ∧ this ∈ ActionSet.addrs m) := by
  induction m with
  | nil => simp [ActionSet.store] at h
  | cons x rest ih =>
    obtain ⟨q, c⟩ := x
    by_cases hq : q = this
    · subst hq
      simp only [ActionSet.store, if_true, List.mem_cons] at h
      rcases h with h | h
      · exact Or.inr ⟨h, by simp [ActionSet.addrs]⟩
      · exact Or.inl (List.mem_cons_of_mem _ h)
    · simp only [ActionSet.store, if_neg hq, List.mem_cons] at h
      rcases h with h | h
      · exact Or.inl (h ▸ List.mem_cons_self _ _)
      · rcases ih h with h2 | ⟨h2, h3⟩
        · exact Or.inl (List.mem_cons_of_mem _ h2)
        · exact Or.inr ⟨h2, by simp [ActionSet.addrs] at h3 ⊢; exact Or.inr h3⟩

theorem ScheduledAction.operator_eq_refl (a : ScheduledAction) (t : Timer)
    (ht : a.m_timer = some t) : a.operator_eq a = some true := by
  simp [ScheduledAction.operator_eq, ht]

theorem ScheduledAction.operator_eq_comm (a b : ScheduledAction) :
    a.operator_eq b = b.operator_eq a := by
  cases ha : a.m_timer <;> cases hb : b.m_timer <;>
    simp only [ScheduledAction.operator_eq, ha, hb]
  congr 1
  rw [Bool.eq_iff_iff]
  simp only [Bool.and_eq_true, decide_eq_true_eq]
  constructor <;> rintro ⟨h1, h2⟩ <;> exact ⟨h1.symm, h2.symm⟩

theorem ScheduledAction.operator_eq_congr (a a1 : ScheduledAction) (t t1 : Timer)
    (ht : a.m_timer = some t) (ht1 : a1.m_timer = some t1) (hx : t1.expiry = t.expiry)
    (hf : a1.m_function = a.m_function) (x : ScheduledAction) :
    x.operator_eq a1 = x.operator_eq a ∧ a1.operator_eq x = a.operator_eq x := by
  cases hxt : x.m_timer <;> simp [ScheduledAction.operator_eq, ht, ht1, hx, hf, hxt]

theorem ActionSet.pairwise_store (this : Addr) (a a1 : ScheduledAction) (m : ActionSet)
    (hpw : m.Pairwise (fun x y => x.2.operator_eq y.2 ≠ some true))
    (hd : ActionSet.deref this m = some a)
    (hk : ∀ x : ScheduledAction,
      x.operator_eq a1 = x.operator_eq a ∧ a1.operator_eq x = a.operator_eq x) :
    (ActionSet.store this a1 m).Pairwise (fun x y => x.2.operator_eq y.2 ≠ some true) := by
  induction m with
  | nil => simp [ActionSet.store]
  | cons x rest ih =>
    obtain ⟨q, c⟩ := x
    rw [List.pairwise_cons] at hpw
    by_cases hq : q = this
    · subst hq
      simp only [ActionSet.deref, if_true, Option.some.injEq] at hd
      subst hd
      simp only [ActionSet.store, if_true, List.pairwise_cons]
      refine ⟨?_, hpw.2⟩
      intro y hy
      rw [(hk y.2).2]
      exact hpw.1 y hy
    · simp only [ActionSet.deref, if_neg hq] at hd
      simp only [ActionSet.store, if_neg hq, List.pairwise_cons]
      refine ⟨?_, ih hpw.2 hd⟩
      intro y hy
      rcases ActionSet.mem_store this a1 rest y hy with h | ⟨h, _⟩
      · exact hpw.1 y h
      · subst h
        show c.operator_eq a1 ≠ some true
        rw [(hk c).1]
        exact hpw.1 (this, a) (ActionSet.mem_of_deref this a rest hd)

theorem ActionSet.erase_live (this : Addr) (a : ScheduledAction) (t : Timer) (e : Env)
    (ht : a.m_timer = some t) (m : ActionSet)
    (hnd : (ActionSet.addrs m).Nodup)
    (hpw : m.Pairwise (fun x y => x.2.operator_eq y.2 ≠ some true))
    (hd : ActionSet.deref this m = some a) :
    this ∉ ActionSet.addrs (ActionSet.erase a m e).1 ∧
    (∀ p, p ≠ this → ActionSet.deref p (ActionSet.erase a m e).1 = ActionSet.deref p m) ∧
    (∀ x ∈ (ActionSet.erase a m e).1, x.2.operator_eq a ≠ some true) ∧
    (ActionSet.erase a m e).1.length + 1 = m.length := by
  induction m with
  | nil => simp [ActionSet.deref] at hd
  | cons x rest ih =>
    obtain ⟨q, c⟩ := x
    rw [List.pairwise_cons] at hpw
    simp only [ActionSet.addrs, List.map_cons, List.nodup_cons] at hnd
    by_cases hq : q = this
    · subst hq
      simp only [ActionSet.deref, if_true, Option.some.injEq] at hd
      subst hd
      simp only [ActionSet.erase, ScheduledAction.operator_eq_refl c t ht, if_true]
      refine ⟨hnd.1, ?_, ?_, by simp⟩
      · intro p hp
        have hqp : ¬ q = p := fun hh => hp hh.symm
        simp [ActionSet.deref, hqp]
      · intro y hy
        rw [ScheduledAction.operator_eq_comm]
        exact hpw.1 y hy
    · simp only [ActionSet.deref, if_neg hq] at hd
      have hne : c.operator_eq a ≠ some true :=
        hpw.1 (this, a) (ActionSet.mem_of_deref this a rest hd)
      obtain ⟨h1, h2, h3, h4⟩ := ih hnd.2 hpw.2 hd
      simp only [ActionSet.erase, if_neg hne]
      refine ⟨?_, ?_, ?_, by simp [h4]⟩
      · simp only [ActionSet.addrs, List.map_cons, List.mem_cons, not_or]
        exact ⟨fun hh => hq hh.symm, h1⟩
      · intro p hp
        by_cases hqp : q = p
        · simp [ActionSet.deref, hqp]
        · simp [ActionSet.deref, hqp, h2 p hp]
      · intro y hy
        rcases List.mem_cons.mp hy with h | h
        · subst h; exact hne
        · exact h3 y h

theorem ActionSet.erase_absent (key : ScheduledAction) (e : Env) (m : ActionSet)
    (h : ∀ x ∈ m, x.2.operator_eq key ≠ some true) : ActionSet.erase key m e = (m, e) := by
  induction m with
  | nil => rfl
  | cons x rest ih =>
    obtain ⟨q, c⟩ := x
    have hc : c.operator_eq key ≠ some true := h (q, c) (List.mem_cons_self _ _)
    simp [ActionSet.erase, hc, ih (fun x hx => h x (List.mem_cons_of_mem _ hx))]

/-- A method call on a live object: the object is updated in place, the other
objects, the addresses of the live set and the slot map stay as they are. -/
theorem World.call_live (this : Addr) (a a1 : ScheduledAction) (e1 : Env) (w : World)
    (method : ScheduledAction → Env → Option (ScheduledAction × Env))
    (hd : ActionSet.deref this w.m_actions = some a) (hm : method a w.env = some (a1, e1)) :
    ∃ w1, w.call this method = some w1 ∧ w1.env = e1 ∧ w1.m_slots = w.m_slots ∧
      w1.m_actions = ActionSet.store this a1 w.m_actions ∧
      ActionSet.deref this w1.m_actions = some a1 ∧
      ActionSet.addrs w1.m_actions = ActionSet.addrs w.m_actions ∧
      (∀ p, p ≠ this → ActionSet.deref p w1.m_actions = ActionSet.deref p w.m_actions) := by
  refine ⟨{ w with m_actions := ActionSet.store this a1 w.m_actions, env := e1 }, ?_, rfl, rfl,
    rfl, ?_, ?_, ?_⟩
  · simp [World.call, hd, hm]
  · exact ActionSet.deref_store_self this a1 a w.m_actions hd
  · exact ActionSet.addrs_store this a1 w.m_actions
  · intro p hp
    exact ActionSet.deref_store_ne this p a1 w.m_actions hp

/-- Removing a live action, by the task that `cancel` posts or by
`PeriodicScheduler::remove` on the state of the action: the action leaves the
live set, which loses one element, the others stay, and removing it once more
changes nothing. -/
theorem remove_task_live (this : Addr) (a : ScheduledAction) (t : Timer) (w : World)
    (hnd : (ActionSet.addrs w.m_actions).Nodup)
    (hpw : w.m_actions.Pairwise (fun x y => x.2.operator_eq y.2 ≠ some true))
    (hd : ActionSet.deref this w.m_actions = some a) (ht : a.m_timer = some t) :
    remove_task this w = remove a w ∧
    ActionSet.deref this (remove a w).m_actions = none ∧
    (∀ p, p ≠ this →
      ActionSet.deref p (remove a w).m_actions = ActionSet.deref p w.m_actions) ∧
    (remove a w).m_actions.length + 1 = w.m_actions.length ∧
    (remove a w).m_slots = w.m_slots ∧
    remove a (remove a w) = remove a w := by
  obtain ⟨h1, h2, h3, h4⟩ := ActionSet.erase_live this a t w.env ht w.m_actions hnd hpw hd
  refine ⟨by simp [remove_task, hd], ?_, ?_, ?_, rfl, ?_⟩
  · exact (ActionSet.deref_eq_none_iff this _).mpr h1
  · exact h2
  · exact h4
  · have h5 := ActionSet.erase_absent a (ActionSet.erase a w.m_actions w.env).2 _ h3
    simp only [remove, h5]

/-! ## Lemmas: the methods of `ScheduledAction` -/

theorem ScheduledAction.handler_error (this : Addr) (a : ScheduledAction) (e : Env) :
    a.timer_expiry_handler this true e = some (a, e) := by
  simp [ScheduledAction.timer_expiry_handler]

theorem steady_clock_now_posted (e : Env) : (steady_clock_now e).2.posted = e.posted := by
  unfold steady_clock_now; split <;> rfl

theorem steady_clock_now_calls (e : Env) : (steady_clock_now e).2.calls = e.calls := by
  unfold steady_clock_now; split <;> rfl

theorem steady_clock_now_now (e : Env) : (steady_clock_now e).2.now = (steady_clock_now e).1 := by
  unfold steady_clock_now; split <;> rfl

theorem steady_clock_now_mono (e : Env) : e.now ≤ (steady_clock_now e).1 := by
  unfold steady_clock_now; split <;> simp

theorem ScheduledAction.cancel_eq (this : Addr) (a : ScheduledAction) (e : Env) (t : Timer)
    (ht : a.m_timer = some t) :
    a.cancel this e =
      some ({ m_timer := some { expiry := t.expiry, waits := [] }, m_function := a.m_function },
            { e with posted := e.posted ++ t.waits.map (fun p => Task.wait_handler p true)
                        ++ [Task.remove this] }) := by
  simp [ScheduledAction.cancel, ht, Timer.cancel, post]

theorem ScheduledAction.reset_time_point_eq (this : Addr) (when : TimePoint)
    (a : ScheduledAction) (e : Env) (t : Timer) (ht : a.m_timer = some t) :
    a.reset_time_point this when e =
      some ({ m_timer := some { expiry := when, waits := [this] }, m_function := a.m_function },
            { e with posted := e.posted ++ t.waits.map (fun p => Task.wait_handler p true) }) := by
  simp [ScheduledAction.reset_time_point, ht, Timer.expires_at, Timer.cancel, Timer.async_wait]

theorem ScheduledAction.reset_time_point_function_eq (this : Addr) (when : TimePoint)
    (function : Function) (a : ScheduledAction) (e : Env) (t : Timer)
    (ht : a.m_timer = some t) :
    a.reset_time_point_function this when function e =
      some ({ m_timer := some { expiry := when, waits := [this] }, m_function := function },
            { e with posted := e.posted ++ t.waits.map (fun p => Task.wait_handler p true) }) := by
  simp [ScheduledAction.reset_time_point_function, ht, Timer.expires_at, Timer.cancel,
    Timer.async_wait]

theorem ScheduledAction.reset_duration_eq (this : Addr) (duration : Duration)
    (a : ScheduledAction) (e : Env) (t : Timer) (ht : a.m_timer = some t) :
    a.reset_duration this duration e =
      some ({ m_timer := some { expiry := (steady_clock_now e).1 + duration, waits := [this] },
              m_function := a.m_function },
            { (steady_clock_now e).2 with
              posted := e.posted ++ t.waits.map (fun p => Task.wait_handler p true) }) := by
  simp [ScheduledAction.reset_duration, ht, Timer.expires_from_now, Timer.expires_at,
    Timer.cancel, Timer.async_wait, steady_clock_now_posted]

theorem ScheduledAction.reset_duration_function_eq (this : Addr) (duration : Duration)
    (function : Function) (a : ScheduledAction) (e : Env) (t : Timer)
    (ht : a.m_timer = some t) :
    a.reset_duration_function this duration function e =
      some ({ m_timer := some { expiry := (steady_clock_now e).1 + duration, waits := [this] },
              m_function := function },
            { (steady_clock_now e).2 with
              posted := e.posted ++ t.waits.map (fun p => Task.wait_handler p true) }) := by
  simp [ScheduledAction.reset_duration_function, ht, Timer.expires_from_now, Timer.expires_at,
    Timer.cancel, Timer.async_wait, steady_clock_now_posted]

theorem removals_append (this : Addr) (l l2 : List Task) :
    removals this (l ++ l2) = removals this l + removals this l2 := by
  simp [removals, List.count_append]

theorem removals_aborted (this : Addr) (ps : List Addr) :
    removals this (ps.map (fun p => Task.wait_handler p true)) = 0 := by
  simp [removals, List.count_eq_zero]

theorem Call.run_spec (this : Addr) (c : Call) (a : ScheduledAction) (e : Env) (t : Timer)
    (ht : a.m_timer = some t) :
    ∃ t1 e1 ts, c.run this a e = some ({ m_timer := some t1, m_function := a.m_function }, e1) ∧
      e1.calls = e.calls ∧ e1.posted = e.posted ++ ts ∧
      (∀ task ∈ ts, Task.benign this task) ∧
      (c ≠ Call.cancel → removals this ts = 0) := by
  cases c with
  | reset_duration d =>
    refine ⟨_, _, t.waits.map (fun p => Task.wait_handler p true),
      ScheduledAction.reset_duration_eq this d a e t ht, ?_, rfl, ?_, ?_⟩
    · exact steady_clock_now_calls e
    · intro task h
      obtain ⟨p, _, hp⟩ := List.mem_map.mp h
      exact Or.inr ⟨p, hp.symm⟩
    · intro _; exact removals_aborted this t.waits
  | reset_time_point tp =>
    refine ⟨_, _, t.waits.map (fun p => Task.wait_handler p true),
      ScheduledAction.reset_time_point_eq this tp a e t ht, rfl, rfl, ?_, ?_⟩
    · intro task h
      obtain ⟨p, _, hp⟩ := List.mem_map.mp h
      exact Or.inr ⟨p, hp.symm⟩
    · intro _; exact removals_aborted this t.waits
  | cancel =>
    refine ⟨_, _, t.waits.map (fun p => Task.wait_handler p true) ++ [Task.remove this],
      ScheduledAction.cancel_eq this a e t ht, rfl, by simp, ?_, ?_⟩
    · intro task h
      rcases List.mem_append.mp h with h | h
      · obtain ⟨p, _, hp⟩ := List.mem_map.mp h
        exact Or.inr ⟨p, hp.symm⟩
      · exact Or.inl (List.mem_singleton.mp h)
    · intro h; exact absurd rfl h

theorem run_body_spec (this : Addr) (body : List Call) :
    ∀ (a : ScheduledAction) (e : Env) (t : Timer), a.m_timer = some t →
      ∃ a1 e1 t1 ts, run_body this body a e = some (a1, e1) ∧ a1.m_timer = some t1 ∧
        a1.m_function = a.m_function ∧ e1.calls = e.calls ∧ e1.posted = e.posted ++ ts ∧
        (∀ task ∈ ts, Task.benign this task) ∧
        ((∀ c ∈ body, c ≠ Call.cancel) → removals this ts = 0) := by
  induction body with
  | nil =>
    intro a e t ht
    exact ⟨a, e, t, [], rfl, ht, rfl, rfl, by simp, by simp, fun _ => rfl⟩
  | cons c rest ih =>
    intro a e t ht
    obtain ⟨t1, e1, ts, hrun, hcalls, hposted, hben, hrem⟩ := Call.run_spec this c a e t ht
    obtain ⟨a2, e2, t2, ts2, hrun2, ht2, hf2, hcalls2, hposted2, hben2, hrem2⟩ :=
      ih { m_timer := some t1, m_function := a.m_function } e1 t1 rfl
    refine ⟨a2, e2, t2, ts ++ ts2, ?_, ht2, hf2, ?_, ?_, ?_, ?_⟩
    · simp [run_body, hrun, hrun2]
    · rw [hcalls2, hcalls]
    · rw [hposted2, hposted, List.append_assoc]
    · intro task h
      rcases List.mem_append.mp h with h | h
      · exact hben task h
      · exact hben2 task h
    · intro hall
      rw [removals_append, hrem (hall c (List.mem_cons_self _ _)),
        hrem2 (fun c2 hc2 => hall c2 (List.mem_cons_of_mem _ hc2))]

theorem run_body_cancels_idle (this : Addr) (body : List Call)
    (hall : ∀ c ∈ body, c = Call.cancel) (x : TimePoint) (f : Function) :
    ∀ e : Env,
      run_body this body { m_timer := some { expiry := x, waits := [] }, m_function := f } e =
        some ({ m_timer := some { expiry := x, waits := [] }, m_function := f },
              { e with posted := e.posted ++ List.replicate body.length (Task.remove this) }) := by
  induction body with
  | nil => intro e; simp [run_body]
  | cons c rest ih =>
    intro e
    have hc : c = Call.cancel := hall c (List.mem_cons_self _ _)
    subst hc
    have hrest := ih (fun c2 hc2 => hall c2 (List.mem_cons_of_mem _ hc2))
    simp [run_body, Call.run, ScheduledAction.cancel, Timer.cancel, post, hrest,
      List.replicate_succ]

theorem run_body_cancels (this : Addr) (c : Call) (rest : List Call)
    (hall : ∀ c2 ∈ c :: rest, c2 = Call.cancel) (a : ScheduledAction) (e : Env) (t : Timer)
    (ht : a.m_timer = some t) :
    run_body this (c :: rest) a e =
      some ({ m_timer := some { expiry := t.expiry, waits := [] }, m_function := a.m_function },
            { e with posted := e.posted ++ (t.waits.map (fun p => Task.wait_handler p true)
                        ++ List.replicate (rest.length + 1) (Task.remove this)) }) := by
  have hc : c = Call.cancel := hall c (List.mem_cons_self _ _)
  subst hc
  have hrest := run_body_cancels_idle this rest
    (fun c2 hc2 => hall c2 (List.mem_cons_of_mem _ hc2)) t.expiry a.m_function
  simp [run_body, Call.run, ScheduledAction.cancel_eq this a e t ht, hrest, List.replicate_succ]

theorem ScheduledAction.handler_eq (this : Addr) (a : ScheduledAction) (e : Env) (t : Timer)
    (cb : Callback) (ht : a.m_timer = some t) (hf : a.m_function = some cb)
    (a1 : ScheduledAction) (e1 : Env) (t1 : Timer)
    (hinv : invoke this cb a e = some (a1, e1)) (ht1 : a1.m_timer = some t1) :
    a.timer_expiry_handler this false e =
      if t1.expiry < (steady_clock_now e1).1 then a1.cancel this (steady_clock_now e1).2
      else some (a1, (steady_clock_now e1).2) := by
  simp [ScheduledAction.timer_expiry_handler, ht, hf, hinv, ht1]

theorem invoke_spec (this : Addr) (cb : Callback) (a : ScheduledAction) (e : Env) (t : Timer)
    (ht : a.m_timer = some t) :
    ∃ a1 e1 t1 ts, invoke this cb a e = some (a1, e1) ∧ a1.m_timer = some t1 ∧
      a1.m_function = a.m_function ∧ e1.calls = e.calls ++ [this] ∧
      e1.posted = e.posted ++ ts ∧ (∀ task ∈ ts, Task.benign this task) ∧
      ((∀ c ∈ cb.body, c ≠ Call.cancel) → removals this ts = 0) := by
  obtain ⟨a1, e1, t1, ts, h1, h2, h3, h4, h5, h6, h7⟩ :=
    run_body_spec this cb.body a { e with calls := e.calls ++ [this] } t ht
  exact ⟨a1, e1, t1, ts, h1, h2, h3, h4, h5, h6, h7⟩

theorem ScheduledAction.handler_spec (this : Addr) (a : ScheduledAction) (e : Env) (t : Timer)
    (cb : Callback) (ht : a.m_timer = some t) (hf : a.m_function = some cb) :
    ∃ a2 e2 t2 ts, a.timer_expiry_handler this false e = some (a2, e2) ∧
      a2.m_timer = some t2 ∧ a2.m_function = a.m_function ∧
      e2.calls = e.calls ++ [this] ∧ e2.posted = e.posted ++ ts ∧
      (∀ task ∈ ts, Task.benign this task) := by
  obtain ⟨a1, e1, t1, ts, hinv, ht1, hf1, hcalls, hposted, hben, _⟩ :=
    invoke_spec this cb a e t ht
  rw [ScheduledAction.handler_eq this a e t cb ht hf a1 e1 t1 hinv ht1]
  by_cases hlt : t1.expiry < (steady_clock_now e1).1
  · rw [if_pos hlt, ScheduledAction.cancel_eq this a1 _ t1 ht1]
    refine ⟨_, _, _, ts ++ (t1.waits.map (fun p => Task.wait_handler p true)
      ++ [Task.remove this]), rfl, rfl, hf1, ?_, ?_, ?_⟩
    · simp [steady_clock_now_calls, hcalls]
    · simp [steady_clock_now_posted, hposted]
    · intro task h
      rcases List.mem_append.mp h with h | h
      · exact hben task h
      · rcases List.mem_append.mp h with h | h
        · obtain ⟨p, _, hp⟩ := List.mem_map.mp h
          exact Or.inr ⟨p, hp.symm⟩
        · exact Or.inl (List.mem_singleton.mp h)
  · rw [if_neg hlt]
    refine ⟨a1, _, t1, ts, rfl, ht1, hf1, ?_, ?_, hben⟩
    · simp [steady_clock_now_calls, hcalls]
    · simp [steady_clock_now_posted, hposted]

theorem steady_clock_now_with (e : Env) (posted : List Task) (calls : List Addr) :
    steady_clock_now { e with posted := posted, calls := calls } =
      ((steady_clock_now e).1, { (steady_clock_now e).2 with posted := posted, calls := calls }) := by
  obtain ⟨now, ticks, posted0, calls0⟩ := e
  cases ticks <;> rfl

/-- The handler on an action whose callback does nothing but call `cancel`, at
least once. -/
theorem ScheduledAction.handler_cancel_only (this : Addr) (a : ScheduledAction) (e : Env)
    (t : Timer) (cb : Callback) (c : Call) (rest : List Call)
    (ht : a.m_timer = some t) (hf : a.m_function = some cb) (hb : cb.body = c :: rest)
    (hall : ∀ c2 ∈ cb.body, c2 = Call.cancel) :
    a.timer_expiry_handler this false e =
      some ({ m_timer := some { expiry := t.expiry, waits := [] }, m_function := a.m_function },
            { (steady_clock_now e).2 with
              calls := e.calls ++ [this],
              posted := e.posted ++ (t.waits.map (fun p => Task.wait_handler p true) ++
                List.replicate
                  (rest.length + 1 + if t.expiry < (steady_clock_now e).1 then 1 else 0)
                  (Task.remove this)) }) := by
  have hinv := run_body_cancels this c rest (hb ▸ hall) a
    { e with calls := e.calls ++ [this] } t ht
  rw [← hb] at hinv
  rw [ScheduledAction.handler_eq this a e t cb ht hf _ _ _ hinv rfl]
  simp only [steady_clock_now_with]
  by_cases hlt : t.expiry < (steady_clock_now e).1
  · simp [hlt, ScheduledAction.cancel, Timer.cancel, post, List.replicate_succ',
      List.append_assoc]
  · simp [hlt]

/-- The handler on an action with no pending wait whose callback calls nothing
but `cancel`, possibly nothing at all. -/
theorem ScheduledAction.handler_idle_no_reset (this : Addr) (x : TimePoint) (cb : Callback)
    (e : Env) (hall : ∀ c ∈ cb.body, c = Call.cancel) :
    ScheduledAction.timer_expiry_handler this false
        { m_timer := some { expiry := x, waits := [] }, m_function := some cb } e =
      some ({ m_timer := some { expiry := x, waits := [] }, m_function := some cb },
            { (steady_clock_now e).2 with
              calls := e.calls ++ [this],
              posted := e.posted ++ List.replicate
                (cb.body.length + if x < (steady_clock_now e).1 then 1 else 0)
                (Task.remove this) }) := by
  have hinv := run_body_cancels_idle this cb.body hall x (some cb)
    { e with calls := e.calls ++ [this] }
  rw [ScheduledAction.handler_eq this _ e _ cb rfl rfl _ _ _ hinv rfl]
  simp only [steady_clock_now_with]
  by_cases hlt : x < (steady_clock_now e).1
  · simp [hlt, ScheduledAction.cancel, Timer.cancel, post, List.replicate_succ',
      List.append_assoc]
  · simp [hlt]

theorem run_task_wait_error (this : Addr) (w : World) :
    run_task (Task.wait_handler this true) w = some w := by
  simp only [run_task, World.call, ScheduledAction.handler_error]
  cases hd : ActionSet.deref this w.m_actions with
  | none => rfl
  | some a => simp [ActionSet.store_deref_self this a w.m_actions hd]

theorem run_tasks_append (ts ts2 : List Task) :
    ∀ w : World, run_tasks (ts ++ ts2) w = (run_tasks ts w).bind (run_tasks ts2) := by
  induction ts with
  | nil => intro w; rfl
  | cons task rest ih =>
    intro w
    simp only [List.cons_append, run_tasks]
    cases run_task task w with
    | none => rfl
    | some w1 => exact ih w1

theorem run_tasks_aborted (ps : List Addr) (w : World) :
    run_tasks (ps.map (fun p => Task.wait_handler p true)) w = some w := by
  induction ps with
  | nil => rfl
  | cons p rest ih => simp [run_tasks, run_task_wait_error, ih]

theorem ActionSet.lt_fresh (m : ActionSet) :
    ∀ n, Addr.node n ∈ ActionSet.addrs m → n < ActionSet.fresh m := by
  induction m with
  | nil => intro n h; simp [ActionSet.addrs] at h
  | cons x rest ih =>
    obtain ⟨q, c⟩ := x
    intro n h
    simp only [ActionSet.addrs, List.map_cons, List.mem_cons] at h
    cases q with
    | stack_local =>
      rcases h with h | h
      · cases h
      · exact ih n h
    | node k =>
      simp only [ActionSet.fresh]
      rcases h with h | h
      · cases h
        exact lt_max_of_lt_left (Nat.lt_succ_self _)
      · exact lt_max_of_lt_right (ih n h)

theorem ActionSet.deref_fresh (m : ActionSet) :
    ActionSet.deref (Addr.node (ActionSet.fresh m)) m = none := by
  rw [ActionSet.deref_eq_none_iff]
  intro h
  exact absurd (ActionSet.lt_fresh m _ h) (lt_irrefl _)

theorem ActionSet.deref_append (p q : Addr) (x : ScheduledAction) (m : ActionSet) :
    ActionSet.deref p (m ++ [(q, x)]) =
      match ActionSet.deref p m with
      | some a => some a
      | none => if q = p then some x else none := by
  induction m with
  | nil => simp [ActionSet.deref]
  | cons y rest ih =>
    obtain ⟨r, c⟩ := y
    by_cases hr : r = p
    · simp [ActionSet.deref, hr]
    · simp [ActionSet.deref, hr, ih]

/-- What `set_timer` does with a non-empty function: its assertion fails when a
live action is equal to the new one; otherwise the new action is appended at a
fresh address, with the wait armed by `reset` (bound to the automatic variable)
and, when the expiry is later than the clock read by the move constructor, the
wait armed by the move constructor. -/
theorem set_timer_eq (duration : Duration) (cb : Callback) (w : World) :
    set_timer duration (some cb) w =
      match ActionSet.find
          { m_timer := some { expiry := (steady_clock_now w.env).1 + duration,
                              waits := [Addr.stack_local] },
            m_function := some cb } w.m_actions with
      | some _ => none
      | none =>
        some ({ w with
                m_actions := w.m_actions ++
                  [(Addr.node (ActionSet.fresh w.m_actions),
                    { m_timer := some
                        { expiry := (steady_clock_now w.env).1 + duration,
                          waits :=
                            if (steady_clock_now (steady_clock_now w.env).2).1
                                < (steady_clock_now w.env).1 + duration
                            then [Addr.stack_local, Addr.node (ActionSet.fresh w.m_actions)]
                            else [Addr.stack_local] },
                      m_function := some cb })],
                env := (steady_clock_now (steady_clock_now w.env).2).2 },
              Addr.node (ActionSet.fresh w.m_actions)) := by
  have henv : ({ (steady_clock_now w.env).2 with
      posted := (steady_clock_now w.env).2.posted } : Env) = (steady_clock_now w.env).2 := rfl
  simp only [set_timer, ScheduledAction.construct, Option.isSome_some, if_true,
    ScheduledAction.reset_duration, Timer.expires_from_now, Timer.expires_at, Timer.cancel,
    Timer.async_wait, List.map_nil, List.append_nil, List.nil_append, henv]
  cases hfind : ActionSet.find
      { m_timer := some { expiry := (steady_clock_now w.env).1 + duration,
                          waits := [Addr.stack_local] },
        m_function := some cb } w.m_actions with
  | some p => simp [ActionSet.insert, hfind]
  | none =>
    by_cases harm : (steady_clock_now (steady_clock_now w.env).2).1
        < (steady_clock_now w.env).1 + duration
    · simp [ActionSet.insert, hfind, ScheduledAction.move_construct, harm, Timer.async_wait]
    · simp [ActionSet.insert, hfind, ScheduledAction.move_construct, harm]

/-! ## Theorems -/

/-- C1: `PeriodicScheduler::schedule` keeps one slot per interval.  A single
call always returns (no assertion fails), keeps the slots as they are when the
interval already has one, and appends exactly one slot keyed by the interval
otherwise; after any sequence of calls from a map with distinct keys the keys
are still distinct, they are the old keys together with the registered
intervals, and every registered interval has exactly one slot. -/
theorem schedule_one_slot_per_interval (w : World)
    (calls : List (Duration × PeriodicFunction))
    (h : (SlotMap.keys w.m_slots).Nodup) :
    (∀ interval function, ∃ w1 out, schedule interval function w = some (w1, out) ∧
      (interval ∈ SlotMap.keys w.m_slots →
        SlotMap.keys w1.m_slots = SlotMap.keys w.m_slots ∧
        w1.m_slots.length = w.m_slots.length) ∧
      (interval ∉ SlotMap.keys w.m_slots →
        SlotMap.keys w1.m_slots = SlotMap.keys w.m_slots ++ [interval] ∧
        w1.m_slots.length = w.m_slots.length + 1)) ∧
    ∃ w2, schedule_all calls w = some w2 ∧
      (SlotMap.keys w2.m_slots).Nodup ∧
      (∀ k, k ∈ SlotMap.keys w2.m_slots ↔
        k ∈ SlotMap.keys w.m_slots ∨ k ∈ calls.map Prod.fst) ∧
      (∀ k ∈ calls.map Prod.fst, (SlotMap.keys w2.m_slots).count k = 1) := by
  constructor
  · intro interval function
    obtain ⟨w1, out, hs, _, _, hk⟩ := schedule_step interval function w
    refine ⟨w1, out, hs, ?_, ?_⟩
    · intro hin
      rw [if_pos hin] at hk
      refine ⟨hk, ?_⟩
      have := congrArg List.length hk
      simpa [SlotMap.keys] using this
    · intro hin
      rw [if_neg hin] at hk
      refine ⟨hk, ?_⟩
      have := congrArg List.length hk
      simpa [SlotMap.keys] using this
  · obtain ⟨w2, h2, hnd, hmem⟩ := schedule_all_spec calls w h
    refine ⟨w2, h2, hnd, hmem, ?_⟩
    intro k hk
    exact List.count_eq_one_of_mem hnd ((hmem k).mpr (Or.inr hk))

/-- Witness for C1: three registrations, two of them at the same interval, on a
scheduler that already has a slot. -/
theorem schedule_one_slot_per_interval_witness :
    (∀ interval function, ∃ w1 out,
      schedule interval function
        ⟨[], [(100, ⟨100, [⟨100, 0, true⟩]⟩)], ⟨0, [], [], []⟩⟩ = some (w1, out) ∧
      (interval ∈ SlotMap.keys [(100, (⟨100, [⟨100, 0, true⟩]⟩ : Slot))] →
        SlotMap.keys w1.m_slots = SlotMap.keys [(100, (⟨100, [⟨100, 0, true⟩]⟩ : Slot))] ∧
        w1.m_slots.length = 1) ∧
      (interval ∉ SlotMap.keys [(100, (⟨100, [⟨100, 0, true⟩]⟩ : Slot))] →
        SlotMap.keys w1.m_slots =
          SlotMap.keys [(100, (⟨100, [⟨100, 0, true⟩]⟩ : Slot))] ++ [interval] ∧
        w1.m_slots.length = 1 + 1)) ∧
    ∃ w2, schedule_all [(100, 1), (250, 2), (250, 3)]
        ⟨[], [(100, ⟨100, [⟨100, 0, true⟩]⟩)], ⟨0, [], [], []⟩⟩ = some w2 ∧
      (SlotMap.keys w2.m_slots).Nodup ∧
      (∀ k, k ∈ SlotMap.keys w2.m_slots ↔
        k ∈ SlotMap.keys [(100, (⟨100, [⟨100, 0, true⟩]⟩ : Slot))] ∨
          k ∈ [(100, 1), (250, 2), (250, 3)].map Prod.fst) ∧
      (∀ k ∈ [((100 : Duration), (1 : PeriodicFunction)), (250, 2), (250, 3)].map Prod.fst,
        (SlotMap.keys w2.m_slots).count k = 1) :=
  schedule_one_slot_per_interval
    ⟨[], [(100, ⟨100, [⟨100, 0, true⟩]⟩)], ⟨0, [], [], []⟩⟩
    [(100, 1), (250, 2), (250, 3)] (by decide)

/-- C2: `ScheduledAction::timer_expiry_handler` called with a non-empty error
status does nothing: the action (its timer, with its expiry and pending waits,
and its callback), the clock, the queue of posted tasks and the log of callback
invocations are as before, for the method on any object state and for the
handler run by the reactor on any scheduler state. -/
theorem timer_expiry_handler_canceled_does_nothing (this : Addr) (a : ScheduledAction)
    (e : Env) (w : World) :
    a.timer_expiry_handler this true e = some (a, e) ∧
    run_task (Task.wait_handler this true) w = some w :=
  ⟨ScheduledAction.handler_error this a e, run_task_wait_error this w⟩

/-- C3: after a genuine expiry (empty error status) of an action that has its
timer and its callback, `timer_expiry_handler` invokes the callback exactly
once; with the timer and the clock as they are after the callback returned, it
calls `cancel` (which empties the timer's waits and posts one removal request)
exactly when the expiry is before now, and otherwise leaves the action and the
queue as the callback left them, so that a callback that only resets posts no
removal request at all; the handler itself never changes the membership of the
live set. -/
theorem timer_expiry_handler_expired (this : Addr) (a : ScheduledAction) (t : Timer)
    (cb : Callback) (w : World) (ht : a.m_timer = some t) (hf : a.m_function = some cb)
    (hd : ActionSet.deref this w.m_actions = some a) :
    ∃ a1 e1 t1, invoke this cb a w.env = some (a1, e1) ∧ a1.m_timer = some t1 ∧
      e1.calls = w.env.calls ++ [this] ∧
      (t1.expiry < (steady_clock_now e1).1 →
        a.timer_expiry_handler this false w.env = a1.cancel this (steady_clock_now e1).2 ∧
        ∃ a2 e2, a.timer_expiry_handler this false w.env = some (a2, e2) ∧
          a2.m_timer = some { expiry := t1.expiry, waits := [] } ∧
          a2.m_function = a1.m_function ∧
          e2.posted = e1.posted ++ t1.waits.map (fun p => Task.wait_handler p true)
            ++ [Task.remove this] ∧
          removals this e2.posted = removals this e1.posted + 1 ∧
          e2.calls = w.env.calls ++ [this]) ∧
      (¬ t1.expiry < (steady_clock_now e1).1 →
        a.timer_expiry_handler this false w.env = some (a1, (steady_clock_now e1).2) ∧
        (steady_clock_now e1).2.posted = e1.posted ∧
        (steady_clock_now e1).2.calls = w.env.calls ++ [this] ∧
        ((∀ c ∈ cb.body, c ≠ Call.cancel) →
          removals this (steady_clock_now e1).2.posted = removals this w.env.posted)) ∧
      ∃ w1, run_task (Task.wait_handler this false) w = some w1 ∧
        ActionSet.addrs w1.m_actions = ActionSet.addrs w.m_actions ∧
        w1.env.calls = w.env.calls ++ [this] := by
  obtain ⟨a1, e1, t1, ts, hinv, ht1, hf1, hcalls, hposted, _, hrem⟩ :=
    invoke_spec this cb a w.env t ht
  have heq := ScheduledAction.handler_eq this a w.env t cb ht hf a1 e1 t1 hinv ht1
  refine ⟨a1, e1, t1, hinv, ht1, hcalls, ?_, ?_, ?_⟩
  · intro hlt
    rw [if_pos hlt] at heq
    refine ⟨heq, ?_⟩
    rw [heq, ScheduledAction.cancel_eq this a1 _ t1 ht1]
    refine ⟨_, _, rfl, rfl, rfl, ?_, ?_, ?_⟩
    · simp [steady_clock_now_posted]
    · simp only [steady_clock_now_posted]
      rw [removals_append, removals_append, removals_aborted]
      simp [removals]
    · simp [steady_clock_now_calls, hcalls]
  · intro hlt
    rw [if_neg hlt] at heq
    refine ⟨heq, steady_clock_now_posted e1, ?_, ?_⟩
    · rw [steady_clock_now_calls, hcalls]
    · intro hall
      rw [steady_clock_now_posted, hposted, removals_append, hrem hall, Nat.add_zero]
  · obtain ⟨a2, e2, t2, ts2, hh, _, _, hc2, _, _⟩ :=
      ScheduledAction.handler_spec this a w.env t cb ht hf
    refine ⟨{ w with m_actions := ActionSet.store this a2 w.m_actions, env := e2 }, ?_, ?_, hc2⟩
    · simp [run_task, World.call, hd, hh]
    · exact ActionSet.addrs_store this a2 w.m_actions

/-- Witness for C3: an action at its deadline whose callback resets it 50 ticks
ahead; the handler invokes the callback and leaves the action in the live set. -/
theorem timer_expiry_handler_expired_witness :
    (⟨some ⟨10, []⟩, some ⟨none, [Call.reset_duration 50]⟩⟩ : ScheduledAction).m_timer
        = some ⟨10, []⟩ ∧
    (⟨some ⟨10, []⟩, some ⟨none, [Call.reset_duration 50]⟩⟩ : ScheduledAction).m_function
        = some ⟨none, [Call.reset_duration 50]⟩ ∧
    ∃ w1, run_task (Task.wait_handler (Addr.node 0) false)
        ⟨[(Addr.node 0, ⟨some ⟨10, []⟩, some ⟨none, [Call.reset_duration 50]⟩⟩)], [],
          ⟨10, [1, 1], [], []⟩⟩ = some w1 ∧
      ActionSet.addrs w1.m_actions = [Addr.node 0] ∧
      w1.env.calls = [Addr.node 0] := by
  obtain ⟨_, _, _, _, _, _, _, _, h⟩ := timer_expiry_handler_expired (Addr.node 0)
    ⟨some ⟨10, []⟩, some ⟨none, [Call.reset_duration 50]⟩⟩ ⟨10, []⟩
    ⟨none, [Call.reset_duration 50]⟩
    ⟨[(Addr.node 0, ⟨some ⟨10, []⟩, some ⟨none, [Call.reset_duration 50]⟩⟩)], [],
      ⟨10, [1, 1], [], []⟩⟩ rfl rfl rfl
  exact ⟨rfl, rfl, h⟩

/-- C4, as stated, fails: the wait armed for deadline 10 has completed and its
handler is queued with an empty error status; the action is then reset to
deadline 100; the queued handler, run at time 10, still invokes the callback
(the log of invocations gains the action), and the wait for deadline 100 stays
armed, so the callback fires at the old deadline and again at the new one. -/
theorem stale_expiry_invokes_callback :
    (ScheduledAction.reset_time_point (Addr.node 0) 100
        ⟨some ⟨10, []⟩, some ⟨none, []⟩⟩ ⟨10, [], [], []⟩).bind
      (fun r => r.1.timer_expiry_handler (Addr.node 0) false r.2) =
    some (⟨some ⟨100, [Addr.node 0]⟩, some ⟨none, []⟩⟩, ⟨10, [], [], [Addr.node 0]⟩) := by
  decide

/-- C4, amended: a superseded wait is ignored through its status only.  Each
`reset` cancels the waits that are pending on the timer: their handlers are
queued with the canceled status, the new wait is the only one pending, and a
handler delivered the canceled status does not invoke the callback.  A handler
delivered an empty status invokes the callback once, whatever the timer's
current deadline is. -/
theorem stale_expiry_ignored_when_canceled (this : Addr) (a : ScheduledAction) (t : Timer)
    (cb : Callback) (e : Env) (ht : a.m_timer = some t) (hf : a.m_function = some cb) :
    (∀ duration, ∃ a1 e1 t1, a.reset_duration this duration e = some (a1, e1) ∧
      a1.m_timer = some t1 ∧ t1.waits = [this] ∧ e1.calls = e.calls ∧
      e1.posted = e.posted ++ t.waits.map (fun p => Task.wait_handler p true)) ∧
    (∀ when, ∃ a1 e1 t1, a.reset_time_point this when e = some (a1, e1) ∧
      a1.m_timer = some t1 ∧ t1.waits = [this] ∧ e1.calls = e.calls ∧
      e1.posted = e.posted ++ t.waits.map (fun p => Task.wait_handler p true)) ∧
    (∀ p, a.timer_expiry_handler p true e = some (a, e)) ∧
    ∃ a2 e2, a.timer_expiry_handler this false e = some (a2, e2) ∧
      e2.calls = e.calls ++ [this] := by
  refine ⟨?_, ?_, ?_, ?_⟩
  · intro duration
    exact ⟨_, _, _, ScheduledAction.reset_duration_eq this duration a e t ht, rfl, rfl,
      steady_clock_now_calls e, rfl⟩
  · intro when
    exact ⟨_, _, _, ScheduledAction.reset_time_point_eq this when a e t ht, rfl, rfl, rfl, rfl⟩
  · intro p
    exact ScheduledAction.handler_error p a e
  · obtain ⟨a2, e2, _, _, hh, _, _, hc, _, _⟩ := ScheduledAction.handler_spec this a e t cb ht hf
    exact ⟨a2, e2, hh, hc⟩

/-- Witness for C4 (amended): an action with one pending wait, its deadline 90
ticks ahead. -/
theorem stale_expiry_ignored_when_canceled_witness :
    (⟨some ⟨100, [Addr.node 0]⟩, some ⟨none, []⟩⟩ : ScheduledAction).m_timer
        = some ⟨100, [Addr.node 0]⟩ ∧
    (⟨some ⟨100, [Addr.node 0]⟩, some ⟨none, []⟩⟩ : ScheduledAction).m_function
        = some ⟨none, []⟩ ∧
    ∃ a2 e2, (⟨some ⟨100, [Addr.node 0]⟩, some ⟨none, []⟩⟩ :
          ScheduledAction).timer_expiry_handler (Addr.node 0) false ⟨10, [], [], []⟩
        = some (a2, e2) ∧
      e2.calls = [Addr.node 0] :=
  ⟨rfl, rfl, (stale_expiry_ignored_when_canceled (Addr.node 0)
    ⟨some ⟨100, [Addr.node 0]⟩, some ⟨none, []⟩⟩ ⟨100, [Addr.node 0]⟩ ⟨none, []⟩
    ⟨10, [], [], []⟩ rfl rfl).2.2.2⟩

/-- C5 at its failing input: `set_timer(10, f)` on an empty scheduler, one tick
passing inside the call, and the timer expiring later.  Two waits are armed on
the timer, the first by `action.reset(duration)`, whose handler is bound to the
automatic variable `action` of `set_timer`, the second by the move constructor,
bound to the element of the live set.  No live object is at the address of
the automatic variable once `set_timer` has returned, and at expiry the first
handler runs with an empty error status on that destroyed object, so that the
dispatch has no defined result and "the callback is invoked exactly once"
cannot be said of it.  With duration 1 the move constructor finds the deadline
not later than its clock reading and arms nothing: the only wait is the one
bound to the destroyed variable. -/
theorem set_timer_wait_bound_to_destroyed_variable :
    set_timer 10 (some ⟨none, []⟩) ⟨[], [], ⟨0, [0, 1, 19], [], []⟩⟩ =
      some (⟨[(Addr.node 0, ⟨some ⟨10, [Addr.stack_local, Addr.node 0]⟩, some ⟨none, []⟩⟩)],
             [], ⟨1, [19], [], []⟩⟩, Addr.node 0) ∧
    ActionSet.deref Addr.stack_local
      [(Addr.node 0, ⟨some ⟨10, [Addr.stack_local, Addr.node 0]⟩, some ⟨none, []⟩⟩)] = none ∧
    fire (Addr.node 0)
      ⟨[(Addr.node 0, ⟨some ⟨10, [Addr.stack_local, Addr.node 0]⟩, some ⟨none, []⟩⟩)],
       [], ⟨1, [19], [], []⟩⟩ = none ∧
    set_timer 1 (some ⟨none, []⟩) ⟨[], [], ⟨0, [0, 1, 5], [], []⟩⟩ =
      some (⟨[(Addr.node 0, ⟨some ⟨1, [Addr.stack_local]⟩, some ⟨none, []⟩⟩)],
             [], ⟨1, [5], [], []⟩⟩, Addr.node 0) ∧
    fire (Addr.node 0)
      ⟨[(Addr.node 0, ⟨some ⟨1, [Addr.stack_local]⟩, some ⟨none, []⟩⟩)],
       [], ⟨1, [5], [], []⟩⟩ = none := by
  decide

/-- C7 at its failing input: a first `set_timer(10, f)` when the clock reads 0
succeeds and leaves a well-formed scheduler with one live action of deadline
10; a second `set_timer(5, f)` with the same function when the clock reads 5
computes the same deadline, the insertion finds the equal element and
`assert(action_pair.second)` fails. -/
theorem set_timer_same_deadline_assertion_fails :
    set_timer 10 (some ⟨none, []⟩) ⟨[], [], ⟨0, [0, 1, 4], [], []⟩⟩ =
      some (⟨[(Addr.node 0, ⟨some ⟨10, [Addr.stack_local, Addr.node 0]⟩, some ⟨none, []⟩⟩)],
             [], ⟨1, [4], [], []⟩⟩, Addr.node 0) ∧
    World.wf ⟨[(Addr.node 0, ⟨some ⟨10, [Addr.stack_local, Addr.node 0]⟩, some ⟨none, []⟩⟩)],
             [], ⟨1, [4], [], []⟩⟩ ∧
    set_timer 5 (some ⟨none, []⟩)
      ⟨[(Addr.node 0, ⟨some ⟨10, [Addr.stack_local, Addr.node 0]⟩, some ⟨none, []⟩⟩)],
       [], ⟨1, [4], [], []⟩⟩ = none := by
  refine ⟨by decide, ?_, by decide⟩
  unfold World.wf
  decide

/-- C8: `operator ==` on two actions that have their timers returns true
whenever they share the deadline and the value of `target<void>()`; it returns
true on an action and itself, and the same value with its operands swapped. -/
theorem operator_eq_same_deadline_and_callback (a b : ScheduledAction) (ta tb : Timer)
    (ha : a.m_timer = some ta) (hb : b.m_timer = some tb) :
    (ta.expiry = tb.expiry → Function.target a.m_function = Function.target b.m_function →
      a.operator_eq b = some true) ∧
    a.operator_eq a = some true ∧
    a.operator_eq b = b.operator_eq a := by
  refine ⟨?_, ?_, ?_⟩
  · intro h1 h2
    simp [ScheduledAction.operator_eq, ha, hb, h1, h2]
  · simp [ScheduledAction.operator_eq, ha]
  · simp only [ScheduledAction.operator_eq, ha, hb]
    congr 1
    rw [Bool.eq_iff_iff]
    simp only [Bool.and_eq_true, decide_eq_true_eq]
    constructor <;> rintro ⟨h1, h2⟩ <;> exact ⟨h1.symm, h2.symm⟩

/-- Witness for C8: two actions with deadline 10 and the same callback. -/
theorem operator_eq_same_deadline_and_callback_witness :
    (⟨some ⟨10, []⟩, some ⟨some 7, []⟩⟩ : ScheduledAction).m_timer = some ⟨10, []⟩ ∧
    (⟨some ⟨10, [Addr.node 1]⟩, some ⟨some 7, []⟩⟩ : ScheduledAction).m_timer
        = some ⟨10, [Addr.node 1]⟩ ∧
    ScheduledAction.operator_eq ⟨some ⟨10, []⟩, some ⟨some 7, []⟩⟩
        ⟨some ⟨10, [Addr.node 1]⟩, some ⟨some 7, []⟩⟩ = some true :=
  ⟨rfl, rfl, (operator_eq_same_deadline_and_callback
    ⟨some ⟨10, []⟩, some ⟨some 7, []⟩⟩ ⟨some ⟨10, [Addr.node 1]⟩, some ⟨some 7, []⟩⟩
    ⟨10, []⟩ ⟨10, [Addr.node 1]⟩ rfl rfl).1 rfl rfl⟩

/-- C9: every overload of `ScheduledAction::reset`, called on a live action,
keeps the action where it is in the live set and touches no other action and
no slot.  `reset(duration)` sets the deadline to the clock reading plus the
duration and `reset(when)` sets it to `when`; after each the only pending wait
is the new one (the waits that were pending are canceled) and the stored
callback is the one that was there; the overloads that take a function store
that function instead.  None of them posts a removal request. -/
theorem reset_keeps_identity (this : Addr) (a : ScheduledAction) (t : Timer) (w : World)
    (hd : ActionSet.deref this w.m_actions = some a) (ht : a.m_timer = some t) :
    (∀ duration, ∃ w1, w.call this (fun a e => a.reset_duration this duration e) = some w1 ∧
      ActionSet.deref this w1.m_actions =
        some { m_timer := some { expiry := (steady_clock_now w.env).1 + duration,
                                 waits := [this] },
               m_function := a.m_function } ∧
      ActionSet.addrs w1.m_actions = ActionSet.addrs w.m_actions ∧
      (∀ p, p ≠ this → ActionSet.deref p w1.m_actions = ActionSet.deref p w.m_actions) ∧
      w1.m_slots = w.m_slots ∧
      w1.env.posted = w.env.posted ++ t.waits.map (fun p => Task.wait_handler p true)) ∧
    (∀ when, ∃ w1, w.call this (fun a e => a.reset_time_point this when e) = some w1 ∧
      ActionSet.deref this w1.m_actions =
        some { m_timer := some { expiry := when, waits := [this] },
               m_function := a.m_function } ∧
      ActionSet.addrs w1.m_actions = ActionSet.addrs w.m_actions ∧
      (∀ p, p ≠ this → ActionSet.deref p w1.m_actions = ActionSet.deref p w.m_actions) ∧
      w1.m_slots = w.m_slots ∧
      w1.env.posted = w.env.posted ++ t.waits.map (fun p => Task.wait_handler p true)) ∧
    (∀ duration function, ∃ w1,
      w.call this (fun a e => a.reset_duration_function this duration function e) = some w1 ∧
      ActionSet.deref this w1.m_actions =
        some { m_timer := some { expiry := (steady_clock_now w.env).1 + duration,
                                 waits := [this] },
               m_function := function } ∧
      ActionSet.addrs w1.m_actions = ActionSet.addrs w.m_actions ∧
      (∀ p, p ≠ this → ActionSet.deref p w1.m_actions = ActionSet.deref p w.m_actions) ∧
      w1.m_slots = w.m_slots ∧
      w1.env.posted = w.env.posted ++ t.waits.map (fun p => Task.wait_handler p true)) ∧
    (∀ when function, ∃ w1,
      w.call this (fun a e => a.reset_time_point_function this when function e) = some w1 ∧
      ActionSet.deref this w1.m_actions =
        some { m_timer := some { expiry := when, waits := [this] },
               m_function := function } ∧
      ActionSet.addrs w1.m_actions = ActionSet.addrs w.m_actions ∧
      (∀ p, p ≠ this → ActionSet.deref p w1.m_actions = ActionSet.deref p w.m_actions) ∧
      w1.m_slots = w.m_slots ∧
      w1.env.posted = w.env.posted ++ t.waits.map (fun p => Task.wait_handler p true)) := by
  refine ⟨?_, ?_, ?_, ?_⟩
  · intro duration
    obtain ⟨w1, hcall, henv, hslots, _, hderef, haddrs, hothers⟩ :=
      World.call_live this a _ _ w (fun a e => a.reset_duration this duration e) hd
        (ScheduledAction.reset_duration_eq this duration a w.env t ht)
    exact ⟨w1, hcall, hderef, haddrs, hothers, hslots, by rw [henv]⟩
  · intro when
    obtain ⟨w1, hcall, henv, hslots, _, hderef, haddrs, hothers⟩ :=
      World.call_live this a _ _ w (fun a e => a.reset_time_point this when e) hd
        (ScheduledAction.reset_time_point_eq this when a w.env t ht)
    exact ⟨w1, hcall, hderef, haddrs, hothers, hslots, by rw [henv]⟩
  · intro duration function
    obtain ⟨w1, hcall, henv, hslots, _, hderef, haddrs, hothers⟩ :=
      World.call_live this a _ _ w
        (fun a e => a.reset_duration_function this duration function e) hd
        (ScheduledAction.reset_duration_function_eq this duration function a w.env t ht)
    exact ⟨w1, hcall, hderef, haddrs, hothers, hslots, by rw [henv]⟩
  · intro when function
    obtain ⟨w1, hcall, henv, hslots, _, hderef, haddrs, hothers⟩ :=
      World.call_live this a _ _ w
        (fun a e => a.reset_time_point_function this when function e) hd
        (ScheduledAction.reset_time_point_function_eq this when function a w.env t ht)
    exact ⟨w1, hcall, hderef, haddrs, hothers, hslots, by rw [henv]⟩

/-- Witness for C9: `reset(30)` at clock reading 5 on a live action with one
pending wait. -/
theorem reset_keeps_identity_witness :
    ActionSet.deref (Addr.node 0)
        (⟨[(Addr.node 0, ⟨some ⟨10, [Addr.node 0]⟩, some ⟨none, []⟩⟩)], [],
          ⟨5, [], [], []⟩⟩ : World).m_actions
      = some ⟨some ⟨10, [Addr.node 0]⟩, some ⟨none, []⟩⟩ ∧
    (⟨some ⟨10, [Addr.node 0]⟩, some ⟨none, []⟩⟩ : ScheduledAction).m_timer
      = some ⟨10, [Addr.node 0]⟩ ∧
    ∃ w1, World.call (Addr.node 0) (fun a e => a.reset_duration (Addr.node 0) 30 e)
        ⟨[(Addr.node 0, ⟨some ⟨10, [Addr.node 0]⟩, some ⟨none, []⟩⟩)], [],
          ⟨5, [], [], []⟩⟩ = some w1 ∧
      ActionSet.deref (Addr.node 0) w1.m_actions =
        some ⟨some ⟨35, [Addr.node 0]⟩, some ⟨none, []⟩⟩ ∧
      ActionSet.addrs w1.m_actions = [Addr.node 0] ∧
      w1.env.posted = [Task.wait_handler (Addr.node 0) true] := by
  obtain ⟨w1, h1, h2, h3, _, _, h6⟩ := (reset_keeps_identity (Addr.node 0)
    ⟨some ⟨10, [Addr.node 0]⟩, some ⟨none, []⟩⟩ ⟨10, [Addr.node 0]⟩
    ⟨[(Addr.node 0, ⟨some ⟨10, [Addr.node 0]⟩, some ⟨none, []⟩⟩)], [], ⟨5, [], [], []⟩⟩
    rfl rfl).1 30
  exact ⟨rfl, rfl, w1, h1, h2, h3, h6⟩

theorem Slot.call_member_length (method : PeriodicAction → PeriodicAction)
    (l : List PeriodicAction) : ∀ i, (Slot.call_member method i l).length = l.length := by
  induction l with
  | nil => intro i; cases i <;> rfl
  | cons a rest ih =>
    intro i
    cases i with
    | zero => rfl
    | succ i => simp [Slot.call_member, ih i]

theorem Slot.call_member_get (method : PeriodicAction → PeriodicAction)
    (l : List PeriodicAction) :
    ∀ i j, (Slot.call_member method i l)[j]? =
      if j = i then (l[j]?).map method else l[j]? := by
  induction l with
  | nil => intro i j; simp [Slot.call_member]
  | cons a rest ih =>
    intro i j
    cases i with
    | zero =>
      cases j with
      | zero => simp [Slot.call_member]
      | succ j => simp [Slot.call_member]
    | succ i =>
      cases j with
      | zero => simp [Slot.call_member]
      | succ j => simp [Slot.call_member, ih i j]

theorem Slot.dispatch_eq (error : Bool) (l : List PeriodicAction) :
    ∀ log, Slot.dispatch error l log =
      log ++ (if error then []
              else (l.filter (fun a => a.active)).map (fun a => a.function)) := by
  induction l with
  | nil => intro log; cases error <;> simp [Slot.dispatch]
  | cons a rest ih =>
    intro log
    cases hact : a.active <;> cases error <;>
      simp [Slot.dispatch, hact, ih, PeriodicAction.timer_expiry_handler]

theorem SlotMap.find_assign (interval : Duration) (slot : Slot) (m : SlotMap)
    (h : interval ∈ SlotMap.keys m) :
    SlotMap.find interval (SlotMap.assign interval slot m) = some slot := by
  induction m with
  | nil => simp [SlotMap.keys] at h
  | cons p rest ih =>
    obtain ⟨k, s0⟩ := p
    by_cases hk : k = interval
    · simp [SlotMap.assign, SlotMap.find, hk]
    · have hin : interval ∈ SlotMap.keys rest := by
        simp only [SlotMap.keys, List.map_cons, List.mem_cons] at h
        rcases h with h | h
        · exact absurd h.symm hk
        · exact h
      simp [SlotMap.assign, SlotMap.find, hk, ih hin]

/-- The slot that `schedule` used holds, after the call, the members it held
before followed by the new member, whose `active` flag is true. -/
theorem schedule_appends_member (interval : Duration) (function : PeriodicFunction)
    (w : World) :
    ∃ w1 out s1, schedule interval function w = some (w1, out) ∧
      out.function = function ∧ out.active = true ∧
      SlotMap.find interval w1.m_slots = some s1 ∧
      s1.actions =
        (match SlotMap.find interval w.m_slots with
         | some s0 => s0.actions
         | none => []) ++ [out] := by
  cases hf : SlotMap.find interval w.m_slots with
  | some s0 =>
    have hmem : interval ∈ SlotMap.keys w.m_slots := by
      by_contra hc
      rw [(SlotMap.find_eq_none_iff interval w.m_slots).mpr hc] at hf
      cases hf
    refine ⟨{ w with m_slots := SlotMap.assign interval (Slot.emplace function s0).1 w.m_slots },
      (Slot.emplace function s0).2, (Slot.emplace function s0).1, ?_, rfl, rfl, ?_, ?_⟩
    · simp [schedule, hf, Slot.emplace_not_empty]
    · exact SlotMap.find_assign interval _ _ hmem
    · simp [Slot.emplace]
  | none =>
    have hmem : interval ∈ SlotMap.keys (w.m_slots ++
        [(interval, ({ interval := interval, actions := [] } : Slot))]) := by
      simp [SlotMap.keys]
    refine ⟨⟨w.m_actions, SlotMap.assign interval
        (Slot.emplace function { interval := interval, actions := [] }).1
        (w.m_slots ++ [(interval, ({ interval := interval, actions := [] } : Slot))]), w.env⟩,
      (Slot.emplace function { interval := interval, actions := [] }).2,
      (Slot.emplace function { interval := interval, actions := [] }).1, ?_, rfl, rfl, ?_, ?_⟩
    · simp [schedule, hf, SlotMap.emplace, Slot.emplace_not_empty]
    · exact SlotMap.find_assign interval _ _ hmem
    · simp [Slot.emplace]

/-! ## Theorems: periodic actions -/

/-- C11: `pause()` sets `active` to false and `unpause()` sets it to true, each
keeping the slot pointer and the callback.  On a slot, `pause()` followed by
`unpause()` through the handle of the member at position `i` leaves the
interval and the number of members as they were, every other member (with its
`active` flag) untouched, and that member with `active == true` and its slot
pointer and callback unchanged; between the two calls the member is still in
its place, paused, and the other members are untouched. -/
theorem pause_unpause_non_destructive (a : PeriodicAction) (s : Slot) (i : Nat) :
    a.pause.active = false ∧ a.pause.slot = a.slot ∧ a.pause.function = a.function ∧
    a.unpause.active = true ∧ a.unpause.slot = a.slot ∧ a.unpause.function = a.function ∧
    a.pause.unpause = { slot := a.slot, function := a.function, active := true } ∧
    (Slot.call i PeriodicAction.pause s).actions.length = s.actions.length ∧
    (Slot.call i PeriodicAction.pause s).actions[i]? =
      (s.actions[i]?).map (fun m => { slot := m.slot, function := m.function, active := false }) ∧
    (∀ j, j ≠ i → (Slot.call i PeriodicAction.pause s).actions[j]? = s.actions[j]?) ∧
    (Slot.call i PeriodicAction.unpause (Slot.call i PeriodicAction.pause s)).interval
      = s.interval ∧
    (Slot.call i PeriodicAction.unpause (Slot.call i PeriodicAction.pause s)).actions.length
      = s.actions.length ∧
    (Slot.call i PeriodicAction.unpause (Slot.call i PeriodicAction.pause s)).actions[i]? =
      (s.actions[i]?).map (fun m => { slot := m.slot, function := m.function, active := true }) ∧
    (∀ j, j ≠ i →
      (Slot.call i PeriodicAction.unpause (Slot.call i PeriodicAction.pause s)).actions[j]?
        = s.actions[j]?) := by
  refine ⟨rfl, rfl, rfl, rfl, rfl, rfl, rfl, ?_, ?_, ?_, rfl, ?_, ?_, ?_⟩
  · simp [Slot.call, Slot.call_member_length]
  · simp only [Slot.call, Slot.call_member_get, if_true]
    cases s.actions[i]? <;> rfl
  · intro j hj
    simp [Slot.call, Slot.call_member_get, hj]
  · simp [Slot.call, Slot.call_member_length]
  · simp only [Slot.call, Slot.call_member_get, if_true]
    cases s.actions[i]? <;> rfl
  · intro j hj
    simp [Slot.call, Slot.call_member_get, hj]

/-- C12: on one tick of a slot with an empty error status the callbacks invoked
are those of the members whose `active` flag is true, one invocation for each
such member, in the order of the members; the slot keeps all its members,
paused ones included; with a non-empty status nothing is invoked.  The order of
the members is the order in which they were added: `schedule` puts the new
member, active, behind the members the slot had, so the next tick invokes what
the slot invoked before, followed by the new callback. -/
theorem tick_invokes_active_in_order (s : Slot) (w : World) (interval : Duration)
    (function : PeriodicFunction) :
    Slot.tick false s =
      (s, (s.actions.filter (fun a => a.active)).map (fun a => a.function)) ∧
    Slot.tick true s = (s, []) ∧
    (Slot.tick false (Slot.emplace function s).1).2 = (Slot.tick false s).2 ++ [function] ∧
    ∃ w1 out s1, schedule interval function w = some (w1, out) ∧
      SlotMap.find interval w1.m_slots = some s1 ∧
      s1.actions =
        (match SlotMap.find interval w.m_slots with
         | some s0 => s0.actions
         | none => []) ++ [out] ∧
      (Slot.tick false s1).2 =
        (match SlotMap.find interval w.m_slots with
         | some s0 => (Slot.tick false s0).2
         | none => []) ++ [function] := by
  refine ⟨?_, ?_, ?_, ?_⟩
  · simp [Slot.tick, Slot.dispatch_eq]
  · simp [Slot.tick, Slot.dispatch_eq]
  · simp [Slot.tick, Slot.dispatch_eq, Slot.emplace, List.filter_append]
  · obtain ⟨w1, out, s1, hs, hfun, hact, hfind, hmem⟩ :=
      schedule_appends_member interval function w
    refine ⟨w1, out, s1, hs, hfind, hmem, ?_⟩
    simp only [Slot.tick, Slot.dispatch_eq, hmem]
    cases SlotMap.find interval w.m_slots <;>
      simp [List.filter_append, hact, hfun]

end crisp.util

namespace crisp.input

/-! ## Theorems: `Axis::map` -/

/-- What the documentation of `Axis::map(RawValue)` asks for when the neutral point
is not centred holds once the base case is excluded: with
`minimum < neutral < maximum`, the two distances to neutral different and
`maximum != -minimum`, the linear stage divides by the larger distance. -/
theorem Axis.linear_stage_off_centre (raw : RawConfig) (raw_value : RawValue)
    (hmin : raw.minimum < raw.neutral) (hmax : raw.neutral < raw.maximum)
    (hoff : raw.maximum - raw.neutral ≠ -(raw.minimum - raw.neutral))
    (hbase : raw.maximum ≠ -raw.minimum) :
    Axis.linear_stage raw raw_value =
      some (((raw_value - raw.neutral : Int) : ℚ) /
        Max.max |((raw.maximum - raw.neutral : Int) : ℚ)|
          |((raw.minimum - raw.neutral : Int) : ℚ)|) := by
  have h1 : ¬ (raw.maximum = -raw.minimum ∨ raw.minimum = raw.neutral) := by
    rintro (h | h)
    · exact hbase h
    · exact ne_of_lt hmin h
  have h2 : ¬ raw.maximum = raw.neutral := ne_of_gt hmax
  have h3 : |raw.maximum - raw.neutral| ≠ |raw.minimum - raw.neutral| := by
    rw [abs_of_pos (sub_pos.mpr hmax), abs_of_neg (sub_neg.mpr hmin)]
    exact hoff
  simp only [Axis.linear_stage, if_neg h1, if_neg h2, if_pos h3]

/-- C13 at its failing input: minimum -10, neutral 5, maximum 10 and raw value
-10.  The configuration satisfies the hypotheses of the claim (neutral strictly
inside, distances 5 and 15 to the extrema), the claim gives
(-10 - 5) / max(5, 15) = -1, and the code takes its base case, because
`maximum == -minimum`, and returns (-10 - 5) / (10 - 5) = -3, from the linear
stage and from `map` with the linear method. -/
theorem map_base_case_ignores_neutral :
    ((-10 : Int) < 5 ∧ (5 : Int) < 10 ∧ (10 - 5 : Int) ≠ -(-10 - 5)) ∧
    (((-10 - 5 : Int) : ℚ) / Max.max |((10 - 5 : Int) : ℚ)| |((-10 - 5 : Int) : ℚ)| = -1) ∧
    Axis.linear_stage { neutral := 5, minimum := -10, maximum := 10 } (-10) = some (-3) ∧
    Axis.map_raw_value
      { raw := { neutral := 5, minimum := -10, maximum := 10 },
        map_method := MapMethod.LINEAR, coefficients := [] } (-10) = some (-3) := by
  refine ⟨by decide, ?_, ?_, ?_⟩
  · norm_num
  · norm_num [Axis.linear_stage]
  · norm_num [Axis.map_raw_value, Axis.linear_stage, Axis.map_value]

end crisp.input

namespace crisp.util

/-! ## Theorems: `SArray`, equality and removal of actions -/

theorem size_t_sub_eq (x y : Nat) (hx : x < size_modulus) (hyx : y ≤ x) :
    size_t_sub x y = x - y := by
  have hy : y < size_modulus := Nat.lt_of_le_of_lt hyx hx
  have h1 : x + size_modulus - y = (x - y) + size_modulus := by omega
  unfold size_t_sub
  rw [Nat.mod_eq_of_lt hx, Nat.mod_eq_of_lt hy, h1, Nat.add_mod_right,
    Nat.mod_eq_of_lt (Nat.lt_of_le_of_lt (Nat.sub_le x y) hx)]

theorem size_t_add_eq (x y : Nat) (h : x + y < size_modulus) : size_t_add x y = x + y :=
  Nat.mod_eq_of_lt h

theorem size_t_mul_eq (x y : Nat) (h : x * y < size_modulus) : size_t_mul x y = x * y :=
  Nat.mod_eq_of_lt h

/-- While the byte counts fit `size_t`, `ensure_capacity(n)` on an array whose
`capacity` cells are allocated returns with capacity at least `n`: nothing
changes when the capacity was already at least `n`; otherwise the new capacity
is `n` when the old one was 0 and `old + 2 * (n - old)` when it was positive;
`size` and the cells up to the old capacity are kept and the added cells are
zero. -/
theorem SArray.ensure_capacity_in_range {α : Type} (sizeof_value : Nat) (zero : α) (n : Nat)
    (a : SArray α) (hs : 0 < sizeof_value)
    (hlen : a.data.length = a.capacity) (hsize : a.size ≤ a.capacity)
    (hn : n * sizeof_value < size_modulus)
    (hfit : a.capacity = 0 ∨
      (a.capacity + 2 * (n - a.capacity)) * sizeof_value < size_modulus) :
    ∃ a1, a.ensure_capacity sizeof_value zero n = some a1 ∧
      n ≤ a1.capacity ∧
      (n ≤ a.capacity → a1 = a) ∧
      (a.capacity < n →
        a1.capacity = if a.capacity = 0 then n else a.capacity + 2 * (n - a.capacity)) ∧
      a1.size = a.size ∧
      a1.data.take a.size = a.data.take a.size ∧
      a1.data = a.data ++ List.replicate (a1.capacity - a.capacity) zero ∧
      a1.data.length = a1.capacity := by
  have hle_mul : ∀ x : Nat, x ≤ x * sizeof_value := fun x => Nat.le_mul_of_pos_right x hs
  have hn1 : n < size_modulus := lt_of_le_of_lt (hle_mul n) hn
  by_cases hlt : a.capacity < n
  · have hnew : ∃ c, c = (if a.capacity > 0 then
          size_t_add a.capacity (size_t_mul 2 (size_t_sub n a.capacity)) else n) ∧
        c = (if a.capacity = 0 then n else a.capacity + 2 * (n - a.capacity)) ∧
        a.capacity ≤ c ∧ n ≤ c ∧ c * sizeof_value < size_modulus := by
      refine ⟨_, rfl, ?_⟩
      by_cases h0 : a.capacity = 0
      · simp only [h0, gt_iff_lt, lt_self_iff_false, if_false, if_true]
        exact ⟨trivial, Nat.zero_le _, le_refl _, hn⟩
      · have hpos : a.capacity > 0 := Nat.pos_of_ne_zero h0
        have hfit2 : (a.capacity + 2 * (n - a.capacity)) * sizeof_value < size_modulus := by
          rcases hfit with h | h
          · exact absurd h h0
          · exact h
        have hfit3 : a.capacity + 2 * (n - a.capacity) < size_modulus :=
          lt_of_le_of_lt (hle_mul _) hfit2
        have e1 : size_t_sub n a.capacity = n - a.capacity :=
          size_t_sub_eq n a.capacity hn1 (Nat.le_of_lt hlt)
        have e2 : size_t_mul 2 (n - a.capacity) = 2 * (n - a.capacity) :=
          size_t_mul_eq _ _ (by omega)
        have e3 : size_t_add a.capacity (2 * (n - a.capacity))
            = a.capacity + 2 * (n - a.capacity) := size_t_add_eq _ _ hfit3
        simp only [hpos, h0, if_true, if_false, e1, e2, e3]
        exact ⟨trivial, by omega, by omega, hfit2⟩
    obtain ⟨c, hc, hc2, hle, hnc, hcs⟩ := hnew
    have hc1 : c < size_modulus := lt_of_le_of_lt (hle_mul c) hcs
    have hsub : size_t_sub c a.capacity = c - a.capacity := size_t_sub_eq c a.capacity hc1 hle
    have hall : size_t_mul c sizeof_value = c * sizeof_value := size_t_mul_eq _ _ hcs
    have hzle : sizeof_value * (c - a.capacity) ≤ c * sizeof_value := by
      rw [Nat.mul_comm]
      exact Nat.mul_le_mul_right _ (Nat.sub_le _ _)
    have hzero : size_t_mul sizeof_value (c - a.capacity) = sizeof_value * (c - a.capacity) :=
      size_t_mul_eq _ _ (lt_of_le_of_lt hzle hcs)
    have hsum : a.capacity * sizeof_value + sizeof_value * (c - a.capacity)
        = c * sizeof_value := by
      rw [Nat.mul_comm sizeof_value, ← Nat.add_mul, Nat.add_sub_cancel' hle]
    refine ⟨{ data := a.data.take c ++ List.replicate (c - a.capacity) zero,
              size := a.size, capacity := c }, ?_, hnc, ?_, ?_, rfl, ?_, ?_, ?_⟩
    · simp only [SArray.ensure_capacity, if_pos hlt]
      rw [← hc]
      simp only [hsub, hall, hzero]
      rw [if_pos (le_of_eq hsum), Nat.mul_div_cancel _ hs, Nat.mul_div_cancel_left _ hs]
    · intro h; omega
    · intro _; exact hc2
    · have htake : a.data.take c = a.data := List.take_of_length_le (by omega)
      simp only [htake]
      rw [List.take_append_of_le_length (by omega)]
    · have htake : a.data.take c = a.data := List.take_of_length_le (by omega)
      simp only [htake]
    · simp only [List.length_append, List.length_take, List.length_replicate]
      omega
  · have hge : n ≤ a.capacity := Nat.le_of_not_lt hlt
    refine ⟨a, ?_, hge, fun _ => rfl, fun h => absurd h hlt, rfl, rfl, ?_, hlen⟩
    · simp [SArray.ensure_capacity, hlt]
    · simp

theorem ScheduledAction.operator_eq_trans (x y k : ScheduledAction)
    (hx : x.operator_eq k = some true) (hy : y.operator_eq k = some true) :
    x.operator_eq y = some true := by
  cases hxt : x.m_timer <;> cases hyt : y.m_timer <;> cases hkt : k.m_timer <;>
    simp only [ScheduledAction.operator_eq, hxt, hyt, hkt, Option.some.injEq,
      Bool.and_eq_true, decide_eq_true_eq, reduceCtorEq] at hx hy ⊢
  exact ⟨hx.1.trans hy.1.symm, hx.2.trans hy.2.symm⟩

theorem ActionSet.erase_spec (key : ScheduledAction) (e : Env) (m : ActionSet)
    (hpw : m.Pairwise (fun x y => x.2.operator_eq y.2 ≠ some true)) :
    (∀ x ∈ (ActionSet.erase key m e).1, x.2.operator_eq key ≠ some true) ∧
    (∀ x ∈ m, x.2.operator_eq key ≠ some true → x ∈ (ActionSet.erase key m e).1) ∧
    (∀ x ∈ (ActionSet.erase key m e).1, x ∈ m) ∧
    ((∃ x ∈ m, x.2.operator_eq key = some true) →
      (ActionSet.erase key m e).1.length + 1 = m.length) := by
  induction m with
  | nil => simp [ActionSet.erase]
  | cons x rest ih =>
    obtain ⟨q, c⟩ := x
    rw [List.pairwise_cons] at hpw
    by_cases hc : c.operator_eq key = some true
    · simp only [ActionSet.erase, if_pos hc]
      refine ⟨?_, ?_, ?_, ?_⟩
      · intro y hy hyk
        exact hpw.1 y hy (ScheduledAction.operator_eq_trans c y.2 key hc hyk)
      · intro y hy hyk
        rcases List.mem_cons.mp hy with h | h
        · subst h; exact absurd hc hyk
        · exact h
      · intro y hy
        exact List.mem_cons_of_mem _ hy
      · intro _; simp
    · obtain ⟨h1, h2, h3, h4⟩ := ih hpw.2
      simp only [ActionSet.erase, if_neg hc]
      refine ⟨?_, ?_, ?_, ?_⟩
      · intro y hy
        rcases List.mem_cons.mp hy with h | h
        · subst h; exact hc
        · exact h1 y h
      · intro y hy hyk
        rcases List.mem_cons.mp hy with h | h
        · subst h; exact List.mem_cons_self _ _
        · exact List.mem_cons_of_mem _ (h2 y h hyk)
      · intro y hy
        rcases List.mem_cons.mp hy with h | h
        · subst h; exact List.mem_cons_self _ _
        · exact List.mem_cons_of_mem _ (h3 y h)
      · rintro ⟨y, hy, hyk⟩
        rcases List.mem_cons.mp hy with h | h
        · subst h; exact absurd hyk hc
        · simp [h4 ⟨y, h, hyk⟩]

/-- C14 at its failing input: an array of 8-byte elements with capacity 1 and
`ensure_capacity(2^63 + 1)`.  The added capacity `2 * (reqd_capacity - capacity)`
is 2^64, which is 0 in `size_t`, and the call returns with the array as it was,
its capacity 1 below the requested one.  With `ensure_capacity(2^60 + 1)` the
member `capacity` becomes 2^61 + 1, but the byte count
`capacity * sizeof(ValueType)` passed to `realloc` is 8 in `size_t` and the
count passed to `memset` is 0: the block still holds one element. -/
theorem ensure_capacity_returns_below_request :
    SArray.ensure_capacity 8 (0 : Nat) (2 ^ 63 + 1) ⟨[7], 1, 1⟩ = some ⟨[7], 1, 1⟩ ∧
    (1 : Nat) < 2 ^ 63 + 1 ∧ 2 ^ 63 + 1 < size_modulus ∧
    SArray.ensure_capacity 8 (0 : Nat) (2 ^ 60 + 1) ⟨[7], 1, 1⟩ =
      some ⟨[7], 1, 2 ^ 61 + 1⟩ ∧
    size_t_mul (2 ^ 61 + 1) 8 = 8 ∧ size_t_mul 8 (size_t_sub (2 ^ 61 + 1) 1) = 0 := by
  decide

/-- C15 at its failing input: two actions with deadline 10 whose callbacks are
different callables (one does nothing, the other cancels its action); for both
`target<void>()` is the null pointer, as for every callable, so `operator ==`
returns true.  With both in the live set, `remove` called for the second erases
the first, the action that merely shares the deadline. -/
theorem operator_eq_ignores_callback :
    ((⟨none, []⟩ : Callback) ≠ ⟨none, [Call.cancel]⟩) ∧
    ScheduledAction.operator_eq
        ⟨some ⟨10, []⟩, some ⟨none, []⟩⟩ ⟨some ⟨10, []⟩, some ⟨none, [Call.cancel]⟩⟩
      = some true ∧
    (remove ⟨some ⟨10, []⟩, some ⟨none, [Call.cancel]⟩⟩
        ⟨[(Addr.node 0, ⟨some ⟨10, []⟩, some ⟨none, []⟩⟩),
          (Addr.node 1, ⟨some ⟨10, []⟩, some ⟨none, [Call.cancel]⟩⟩)], [],
         ⟨0, [], [], []⟩⟩).m_actions
      = [(Addr.node 1, ⟨some ⟨10, []⟩, some ⟨none, [Call.cancel]⟩⟩)] := by
  decide

/-- C16 at its failing input: the scheduler after `set_timer(10, f)`,
`set_timer(20, g)` and `reset(TimePoint 10)` on the second action, and `remove`
called for the second action.  Both live actions have deadline 10 and
`operator ==` returns true for them.  `remove` erases one element, the action
of `f`; the given action, which is equal to itself, is still in the live set
afterwards, and `remove` applied a second time erases it too, so that `remove`
applied twice is not `remove` applied once. -/
theorem remove_leaves_equal_action :
    ((set_timer 10 (some ⟨none, []⟩) ⟨[], [], ⟨0, [0, 1, 1, 1, 20, 1], [], []⟩⟩).bind fun r1 =>
      (set_timer 20 (some ⟨none, [Call.cancel]⟩) r1.1).bind fun r2 =>
        World.call r2.2 (fun a e => a.reset_time_point r2.2 10 e) r2.1) =
      some ⟨[(Addr.node 0, ⟨some ⟨10, [Addr.stack_local, Addr.node 0]⟩, some ⟨none, []⟩⟩),
            (Addr.node 1, ⟨some ⟨10, [Addr.node 1]⟩, some ⟨none, [Call.cancel]⟩⟩)], [],
           ⟨3, [20, 1], [Task.wait_handler Addr.stack_local true,
                         Task.wait_handler (Addr.node 1) true], []⟩⟩ ∧
    ScheduledAction.operator_eq
      ⟨some ⟨10, [Addr.stack_local, Addr.node 0]⟩, some ⟨none, []⟩⟩
      ⟨some ⟨10, [Addr.node 1]⟩, some ⟨none, [Call.cancel]⟩⟩ = some true ∧
    ScheduledAction.operator_eq ⟨some ⟨10, [Addr.node 1]⟩, some ⟨none, [Call.cancel]⟩⟩
      ⟨some ⟨10, [Addr.node 1]⟩, some ⟨none, [Call.cancel]⟩⟩ = some true ∧
    (remove ⟨some ⟨10, [Addr.node 1]⟩, some ⟨none, [Call.cancel]⟩⟩
      ⟨[(Addr.node 0, ⟨some ⟨10, [Addr.stack_local, Addr.node 0]⟩, some ⟨none, []⟩⟩),
       (Addr.node 1, ⟨some ⟨10, [Addr.node 1]⟩, some ⟨none, [Call.cancel]⟩⟩)], [],
      ⟨3, [20, 1], [Task.wait_handler Addr.stack_local true,
                    Task.wait_handler (Addr.node 1) true], []⟩⟩).m_actions =
      [(Addr.node 1, ⟨some ⟨10, [Addr.node 1]⟩, some ⟨none, [Call.cancel]⟩⟩)] ∧
    (remove ⟨some ⟨10, [Addr.node 1]⟩, some ⟨none, [Call.cancel]⟩⟩
      (remove ⟨some ⟨10, [Addr.node 1]⟩, some ⟨none, [Call.cancel]⟩⟩
        ⟨[(Addr.node 0, ⟨some ⟨10, [Addr.stack_local, Addr.node 0]⟩, some ⟨none, []⟩⟩),
         (Addr.node 1, ⟨some ⟨10, [Addr.node 1]⟩, some ⟨none, [Call.cancel]⟩⟩)], [],
        ⟨3, [20, 1], [Task.wait_handler Addr.stack_local true,
                      Task.wait_handler (Addr.node 1) true], []⟩⟩)).m_actions = [] := by
  decide

end crisp.util

namespace crisp.comms

/-! ## Theorems: `MemoryEncodeBuffer::write` -/

theorem memcpy_length (dst src : List Nat) (offset n : Nat)
    (hsrc : n ≤ src.length) (hdst : offset + n ≤ dst.length) :
    (memcpy dst offset src n).length = dst.length := by
  simp only [memcpy, List.length_append, List.length_take, List.length_drop]
  omega

theorem memcpy_copied (dst src : List Nat) (offset n i : Nat)
    (hsrc : n ≤ src.length) (hdst : offset + n ≤ dst.length) (hi : i < n) :
    (memcpy dst offset src n)[offset + i]? = src[i]? := by
  have h1 : (dst.take offset).length = offset := by
    rw [List.length_take]; omega
  have h2 : (src.take n).length = n := by
    rw [List.length_take]; omega
  unfold memcpy
  rw [List.append_assoc, List.getElem?_append_right (by omega), h1,
    List.getElem?_append_left (by omega)]
  simp [List.getElem?_take, hi]

theorem memcpy_others (dst src : List Nat) (offset n j : Nat)
    (hsrc : n ≤ src.length) (hdst : offset + n ≤ dst.length)
    (hj : j < offset ∨ offset + n ≤ j) :
    (memcpy dst offset src n)[j]? = dst[j]? := by
  have h1 : (dst.take offset).length = offset := by
    rw [List.length_take]; omega
  have h2 : (src.take n).length = n := by
    rw [List.length_take]; omega
  unfold memcpy
  rcases hj with hj | hj
  · rw [List.append_assoc, List.getElem?_append_left (by omega)]
    simp [List.getElem?_take, hj]
  · rw [List.getElem?_append_right (by simp only [List.length_append]; omega)]
    simp only [List.length_append, h1, h2, List.getElem?_drop]
    congr 1
    omega

/-- C17: `MemoryEncodeBuffer::write(buf, size)` on a buffer with
`offset <= length`, whose `length` bytes are allocated, given at least `size`
bytes to read.  It returns `INSUFFICIENT_SPACE` exactly when
`length - offset < size`, and then the buffer (offset and contents) is
unchanged; otherwise it returns `SUCCESS`, the bytes at positions
`offset .. offset + size - 1` are those of `buf`, every other byte is unchanged,
the offset has advanced by `size` and is still at most `length`. -/
theorem write_all_or_nothing (buf : List Nat) (size : Nat) (b : MemoryEncodeBuffer)
    (hoff : b.offset ≤ b.length) (hlen : b.length < util.size_modulus)
    (hdata : b.data.length = b.length) (hbuf : size ≤ buf.length) :
    ((b.write buf size).1 = EncodeResult.INSUFFICIENT_SPACE ↔ b.length - b.offset < size) ∧
    (b.length - b.offset < size → b.write buf size = (EncodeResult.INSUFFICIENT_SPACE, b)) ∧
    (¬ b.length - b.offset < size →
      (b.write buf size).1 = EncodeResult.SUCCESS ∧
      (b.write buf size).2.offset = b.offset + size ∧
      (b.write buf size).2.length = b.length ∧
      (b.write buf size).2.data.length = b.length ∧
      (∀ i, i < size → (b.write buf size).2.data[b.offset + i]? = buf[i]?) ∧
      (∀ j, j < b.offset ∨ b.offset + size ≤ j →
        (b.write buf size).2.data[j]? = b.data[j]?)) ∧
    (b.write buf size).2.offset ≤ (b.write buf size).2.length := by
  have hsub : util.size_t_sub b.length b.offset = b.length - b.offset :=
    util.size_t_sub_eq b.length b.offset hlen hoff
  by_cases hlt : b.length - b.offset < size
  · have hw : b.write buf size = (EncodeResult.INSUFFICIENT_SPACE, b) := by
      simp [MemoryEncodeBuffer.write, hsub, hlt]
    refine ⟨?_, fun _ => hw, fun h => absurd hlt h, ?_⟩
    · simp [hw, hlt]
    · rw [hw]; exact hoff
  · have hfit : b.offset + size ≤ b.length := by omega
    have hadd : util.size_t_add b.offset size = b.offset + size :=
      util.size_t_add_eq _ _ (by omega)
    have hw : b.write buf size =
        (EncodeResult.SUCCESS,
         { data := memcpy b.data b.offset buf size, length := b.length,
           offset := b.offset + size }) := by
      simp [MemoryEncodeBuffer.write, hsub, hlt, hadd]
    refine ⟨?_, fun h => absurd h hlt, fun _ => ?_, ?_⟩
    · simp [hw, hlt]
    · rw [hw]
      refine ⟨rfl, rfl, rfl, ?_, ?_, ?_⟩
      · rw [← hdata]
        exact memcpy_length _ _ _ _ hbuf (by omega)
      · intro i hi
        exact memcpy_copied _ _ _ _ _ hbuf (by omega) hi
      · intro j hj
        exact memcpy_others _ _ _ _ _ hbuf (by omega) hj
    · rw [hw]; exact hfit

/-- Witness for C17: three bytes written at offset 1 of a buffer of five. -/
theorem write_all_or_nothing_witness :
    ((1 : Nat) ≤ 5 ∧ (5 : Nat) < util.size_modulus ∧
      ([0, 0, 0, 0, 0] : List Nat).length = 5 ∧ 3 ≤ ([1, 2, 3] : List Nat).length) ∧
    MemoryEncodeBuffer.write [1, 2, 3] 3 ⟨[0, 0, 0, 0, 0], 5, 1⟩ =
      (EncodeResult.SUCCESS, ⟨[0, 1, 2, 3, 0], 5, 4⟩) ∧
    (MemoryEncodeBuffer.write [1, 2, 3] 3 ⟨[0, 0, 0, 0, 0], 5, 1⟩).2.offset ≤
      (MemoryEncodeBuffer.write [1, 2, 3] 3 ⟨[0, 0, 0, 0, 0], 5, 1⟩).2.length :=
  ⟨by decide, by decide,
    (write_all_or_nothing [1, 2, 3] 3 ⟨[0, 0, 0, 0, 0], 5, 1⟩ (by decide) (by decide) rfl
      (by decide)).2.2.2⟩

end crisp.comms

namespace crisp.input

/-- C18: `Axis::map(RawValue)` throws exactly when `maximum != -minimum`,
`minimum != neutral`, `maximum != neutral` and
`|maximum - neutral| == |minimum - neutral|`, whatever the raw value, the map
method and the coefficients are; for every other configuration it returns a
value.  With minimum 0, neutral 5 and maximum 10 it throws for every raw
value. -/
theorem map_raw_value_throws_iff (a : Axis) (raw_value : RawValue) :
    (a.map_raw_value raw_value = none ↔
      (a.raw.maximum ≠ -a.raw.minimum ∧ a.raw.minimum ≠ a.raw.neutral ∧
       a.raw.maximum ≠ a.raw.neutral ∧
       |a.raw.maximum - a.raw.neutral| = |a.raw.minimum - a.raw.neutral|)) ∧
    (¬ (a.raw.maximum ≠ -a.raw.minimum ∧ a.raw.minimum ≠ a.raw.neutral ∧
        a.raw.maximum ≠ a.raw.neutral ∧
        |a.raw.maximum - a.raw.neutral| = |a.raw.minimum - a.raw.neutral|) →
      ∃ v, a.map_raw_value raw_value = some v) ∧
    (∀ (method : MapMethod) (coefficients : List Value) (r : RawValue),
      Axis.map_raw_value
        { raw := { neutral := 5, minimum := 0, maximum := 10 },
          map_method := method, coefficients := coefficients } r = none) := by
  have key : a.map_raw_value raw_value = none ↔
      (a.raw.maximum ≠ -a.raw.minimum ∧ a.raw.minimum ≠ a.raw.neutral ∧
       a.raw.maximum ≠ a.raw.neutral ∧
       |a.raw.maximum - a.raw.neutral| = |a.raw.minimum - a.raw.neutral|) := by
    unfold Axis.map_raw_value Axis.linear_stage
    by_cases hA : a.raw.maximum = -a.raw.minimum ∨ a.raw.minimum = a.raw.neutral
    · rw [if_pos hA]
      refine ⟨fun h => (by cases h), fun h => ?_⟩
      rcases hA with hA | hA
      · exact absurd hA h.1
      · exact absurd hA h.2.1
    · rw [if_neg hA]
      by_cases hB : a.raw.maximum = a.raw.neutral
      · rw [if_pos hB]
        exact ⟨fun h => (by cases h), fun h => absurd hB h.2.2.1⟩
      · rw [if_neg hB]
        by_cases hC : |a.raw.maximum - a.raw.neutral| ≠ |a.raw.minimum - a.raw.neutral|
        · rw [if_pos hC]
          exact ⟨fun h => (by cases h), fun h => absurd h.2.2.2 hC⟩
        · rw [if_neg hC]
          refine ⟨fun _ => ⟨fun h => hA (Or.inl h), fun h => hA (Or.inr h), hB, ?_⟩,
            fun _ => rfl⟩
          exact not_not.mp hC
  refine ⟨key, ?_, ?_⟩
  · intro hn
    cases hres : a.map_raw_value raw_value with
    | none => exact absurd (key.mp hres) hn
    | some v => exact ⟨v, rfl⟩
  · intro method coefficients r
    simp [Axis.map_raw_value, Axis.linear_stage]

end crisp.input
